import Mathlib

/-!
Verification of the Meget tour-analytics backend.

The definitions below are a shallow embedding of `src/convex/analytics.ts`
(progress tracking and aggregation for product tours) and of the
step-deletion mutation of the tours module.  The Convex document store is
modelled as a list of documents in insertion (`_creationTime`) order;
`Date.now()` becomes an explicit `now : Nat` argument (milliseconds since
the Unix epoch); a JavaScript `number | undefined` field becomes
`Option Nat`, and JavaScript truthiness of such a field (`undefined` and
`0` are falsy) is `truthyNum`.  Rates computed with JavaScript `/` and `*`
are modelled over `Rat`.  Convex functions run with a UTC wall clock, so the
local-time accessors of `new Date(ms)` are modelled at UTC offset zero.
-/

namespace Meget

/-- One Step Progress Entry of a record's `stepProgress` array. -/
structure StepEntry where
  stepId : String
  startedAt : Nat
  completedAt : Option Nat
deriving DecidableEq, Repr, Inhabited

/-- One `tourAnalytics` document (a Progress Record): `id` models `_id` and
`creationTime` models `_creationTime`, both assigned at insertion. -/
structure AnalyticsRecord where
  id : Nat
  tourId : String
  userId : String
  startedAt : Nat
  completedAt : Option Nat
  abandonedAt : Option Nat
  stepProgress : List StepEntry
  creationTime : Nat
deriving DecidableEq, Repr

/-- JavaScript truthiness of an optional numeric field: `undefined` and `0`
are falsy, every other number is truthy. -/
def truthyNum : Option Nat → Bool
  | none => false
  | some t => t != 0

/-- The `stepProgress` update performed by `completeStep` (analytics.ts
lines 38-58): `findIndex` locates the first entry for `stepId`; if found its
completion timestamp is overwritten in place, otherwise a fresh entry with
both timestamps equal to `now` is pushed at the end. -/
def completeStepEntries (sp : List StepEntry) (stepId : String) (now : Nat) : List StepEntry :=
  match sp.findIdx? (fun e => e.stepId == stepId) with
  | some i => sp.set i { sp.getD i default with completedAt := some now }
  | none => sp ++ [{ stepId := stepId, startedAt := now, completedAt := some now }]

/-- Recursive restatement of `completeStepEntries`, used by the proofs. -/
def completeStepEntriesRec : List StepEntry → String → Nat → List StepEntry
  | [], s, now => [{ stepId := s, startedAt := now, completedAt := some now }]
  | e :: rest, s, now =>
    if e.stepId == s then { e with completedAt := some now } :: rest
    else e :: completeStepEntriesRec rest s now

/-- The record-level effect of one tracker mutation on its target Progress
Record (analytics.ts lines 26-96): `completeStep` rewrites `stepProgress`,
while `completeTour` and `abandonTour` unconditionally patch exactly one
timestamp field. -/
inductive TrackerOp where
  | completeStep (stepId : String) (now : Nat)
  | completeTour (now : Nat)
  | abandonTour (now : Nat)
deriving DecidableEq, Repr

def applyOp (r : AnalyticsRecord) : TrackerOp → AnalyticsRecord
  | .completeStep s now => { r with stepProgress := completeStepEntries r.stepProgress s now }
  | .completeTour now => { r with completedAt := some now }
  | .abandonTour now => { r with abandonedAt := some now }

def runOps (r : AnalyticsRecord) (ops : List TrackerOp) : AnalyticsRecord :=
  ops.foldl applyOp r

/-- The Progress Record inserted by `startTour` (analytics.ts lines 7-23):
empty `stepProgress`, no terminal timestamps, `startedAt = now`. -/
def startTourRecord (i : Nat) (tourId userId : String) (now : Nat) : AnalyticsRecord :=
  { id := i, tourId := tourId, userId := userId, startedAt := now,
    completedAt := none, abandonedAt := none, stepProgress := [], creationTime := now }

/-- A sequence of `completeStep` calls (step identifier and call time) on one
record. -/
def runCompleteSteps (r : AnalyticsRecord) (calls : List (String × Nat)) : AnalyticsRecord :=
  runOps r (calls.map (fun c => TrackerOp.completeStep c.1 c.2))

def TrackerOp.isCompleteTour : TrackerOp → Bool
  | .completeTour _ => true
  | _ => false

def TrackerOp.isAbandonTour : TrackerOp → Bool
  | .abandonTour _ => true
  | _ => false

/-- Convex `ctx.db.get` on the `tourAnalytics` table. -/
def dbGet (db : List AnalyticsRecord) (i : Nat) : Option AnalyticsRecord :=
  db.find? (fun r => r.id == i)

/-- Convex `ctx.db.patch`: merges a field update into the document with the
given id, and throws (modelled as `.error`) when no such document exists. -/
def dbPatch (db : List AnalyticsRecord) (i : Nat) (f : AnalyticsRecord → AnalyticsRecord) :
    Except String (List AnalyticsRecord) :=
  match dbGet db i with
  | none => .error "patch: document not found"
  | some _ => .ok (db.map (fun r => if r.id == i then f r else r))

/-- `completeStep` at the database level (analytics.ts lines 26-66): throws
`Analytics record not found` when the record does not exist, otherwise
persists the updated entry collection and returns the id. -/
def completeStep (db : List AnalyticsRecord) (i : Nat) (stepId : String) (now : Nat) :
    Except String (List AnalyticsRecord × Nat) :=
  match dbGet db i with
  | none => .error "Analytics record not found"
  | some r =>
    (dbPatch db i
        (fun r2 => { r2 with stepProgress := completeStepEntries r.stepProgress stepId now })).map
      (fun db2 => (db2, i))

/-- `completeTour` at the database level (analytics.ts lines 69-81):
unconditionally patches `completedAt` to the call time. -/
def completeTour (db : List AnalyticsRecord) (i : Nat) (now : Nat) :
    Except String (List AnalyticsRecord × Nat) :=
  (dbPatch db i (fun r => { r with completedAt := some now })).map (fun db2 => (db2, i))

/-- `abandonTour` at the database level (analytics.ts lines 84-96):
unconditionally patches `abandonedAt` to the call time. -/
def abandonTour (db : List AnalyticsRecord) (i : Nat) (now : Nat) :
    Except String (List AnalyticsRecord × Nat) :=
  (dbPatch db i (fun r => { r with abandonedAt := some now })).map (fun db2 => (db2, i))

/-- First-seen deduplication: running list of distinct keys in order of first
appearance, the key order of a JavaScript `Map` populated by the `byDay`
aggregation loop. -/
def firstSeen {α : Type} [DecidableEq α] (acc : List α) : List α → List α
  | [] => acc
  | k :: ks => firstSeen (if k ∈ acc then acc else acc ++ [k]) ks

/-- The get-or-initialise step of the `Map`-based `byDay` loop on an
insertion-ordered key/value list: a `Map` has no prototype chain, so the
bucket is created exactly when the key holds no (truthy) entry yet. -/
def jsGetOrInit {α : Type} (m : List (String × α)) (k : String) (v0 : α) : List (String × α) :=
  if m.any (fun p => p.1 == k) then m else m ++ [(k, v0)]

/-- The `obj[k] = f(obj[k])` update step on an insertion-ordered key/value
list; it touches own keys only. -/
def jsUpdate {α : Type} (m : List (String × α)) (k : String) (f : α → α) : List (String × α) :=
  m.map (fun p => if p.1 == k then (p.1, f p.2) else p)

/-- One iteration of the `Map`-based `byDay` aggregation loop of
`analytics.ts`: initialise the bucket for the element's key if absent, then
update it with the element. -/
def jsStep {β α : Type} (key : β → String) (v0 : α) (upd : β → α → α)
    (m : List (String × α)) (e : β) : List (String × α) :=
  jsUpdate (jsGetOrInit m (key e) v0) (key e) (upd e)

/-- Folding a list of elements into keyed buckets, exactly as the
`for ... of` loop building the `Map`-backed `byDay` does. -/
def jsGroup {β α : Type} (key : β → String) (v0 : α) (upd : β → α → α)
    (m : List (String × α)) : List β → List (String × α)
  | [] => m
  | e :: es => jsGroup key v0 upd (jsStep key v0 upd m e) es

/-- Lookup of a key's value in an insertion-ordered key/value list. -/
def lookupKey {α : Type} (m : List (String × α)) (k : String) : Option α :=
  (m.find? (fun p => p.1 == k)).map Prod.snd

/-- The property names a plain `{}` object inherits from `Object.prototype`
(its own properties, including the Annex B legacy accessors).  Every
inherited value — a built-in function, or `Object.prototype` itself through
the `__proto__` accessor — is truthy, while a read of any other absent key
yields the falsy `undefined`. -/
def protoKeys : List String :=
  ["constructor", "hasOwnProperty", "isPrototypeOf", "propertyIsEnumerable",
   "toLocaleString", "toString", "valueOf", "__proto__", "__defineGetter__",
   "__defineSetter__", "__lookupGetter__", "__lookupSetter__"]

/-- The `if (!obj[k]) obj[k] = v0` initialisation step on a plain `{}`
object, whose own properties form an insertion-ordered key/value list.  The
read `obj[k]` walks the prototype chain: it is truthy when `k` is an own
key (the stored buckets are objects, hence truthy) or a property inherited
from `Object.prototype`, and either way the initialisation is skipped — so
a key that names an `Object.prototype` property never becomes an own
property of the accumulator. -/
def jsObjGetOrInit {α : Type} (m : List (String × α)) (k : String) (v0 : α) :
    List (String × α) :=
  if m.any (fun p => p.1 == k) = true ∨ k ∈ protoKeys then m else m ++ [(k, v0)]

/-- One iteration of the plain-object `stepCompletion` loop of
`getTourAnalytics`: initialise the bucket unless the read is truthy, then
apply the update.  `jsUpdate` touches own keys only: when the key resolves
to an inherited property the `+= 1` writes land on the inherited object and
leave the accumulator's own properties — the only ones `Object.entries`
reports — unchanged. -/
def jsObjStep {β α : Type} (key : β → String) (v0 : α) (upd : β → α → α)
    (m : List (String × α)) (e : β) : List (String × α) :=
  jsUpdate (jsObjGetOrInit m (key e) v0) (key e) (upd e)

/-- Folding a list of elements into plain-object buckets, exactly as the
`for ... of` loops building `stepCompletion` do. -/
def jsObjGroup {β α : Type} (key : β → String) (v0 : α) (upd : β → α → α)
    (m : List (String × α)) : List β → List (String × α)
  | [] => m
  | e :: es => jsObjGroup key v0 upd (jsObjStep key v0 upd m e) es

/-- First-seen deduplication that skips `Object.prototype` property names:
the own-key creation order of a plain `{}` object populated by
`jsObjStep`. -/
def firstSeenObj (acc : List String) : List String → List String
  | [] => acc
  | k :: ks => firstSeenObj (if k ∈ acc ∨ k ∈ protoKeys then acc else acc ++ [k]) ks

/-- Decimal digit character, `String(n)` style. -/
def decDigit (k : Nat) : Char :=
  if k = 0 then '0' else if k = 1 then '1' else if k = 2 then '2' else if k = 3 then '3'
  else if k = 4 then '4' else if k = 5 then '5' else if k = 6 then '6' else if k = 7 then '7'
  else if k = 8 then '8' else '9'

/-- Decimal digit list of `n`, most significant first; `fuel` bounds the
recursion depth and any `fuel > log10 n` is enough. -/
def decDigits : Nat → Nat → List Char
  | 0, _ => []
  | fuel + 1, n => if n < 10 then [decDigit n] else decDigits fuel (n / 10) ++ [decDigit (n % 10)]

/-- The canonical decimal string of a natural number, as JavaScript template
interpolation `${n}` renders it. -/
def natStr (n : Nat) : String :=
  String.mk (decDigits (n + 1) n)

/-- Value of a most-significant-first digit character list; left inverse of
`decDigits` used to prove `natStr` injective. -/
def digitsVal (cs : List Char) : Nat :=
  cs.foldl (fun n c => 10 * n + (c.toNat - 48)) 0

/-- Gregorian leap-year test. -/
def isLeap (y : Nat) : Bool :=
  (y % 4 == 0 && y % 100 != 0) || (y % 400 == 0)

def daysInYear (y : Nat) : Nat :=
  if isLeap y then 366 else 365

/-- Month lengths of year `y`, January first. -/
def monthLengths (y : Nat) : List Nat :=
  [31, if isLeap y then 29 else 28, 31, 30, 31, 30, 31, 31, 30, 31, 30, 31]

/-- Total number of days of `k` consecutive years starting at year `y`; the
reconstruction function for `yearSplit`. -/
def sumYearsFrom : Nat → Nat → Nat
  | _, 0 => 0
  | y, k + 1 => daysInYear y + sumYearsFrom (y + 1) k

/-- Splits a day count `z` (days since January 1 of year `y`) into the civil
year and the remaining day-of-year, peeling whole years; `fuel` bounds the
recursion and any `fuel > z / 365` is enough. -/
def yearSplit : Nat → Nat → Nat → Nat × Nat
  | 0, y, z => (y, z)
  | fuel + 1, y, z =>
    if z < daysInYear y then (y, z) else yearSplit fuel (y + 1) (z - daysInYear y)

/-- Splits a day-of-year `r` into the 1-based civil month (starting at `m`)
and the 0-based day within the month, peeling the month lengths. -/
def monthSplit : List Nat → Nat → Nat → Nat × Nat
  | [], m, r => (m, r)
  | len :: rest, m, r => if r < len then (m, r) else monthSplit rest (m + 1) (r - len)

/-- Civil (proleptic Gregorian, UTC) date of day number `z`, with day 0 being
1970-01-01: models `getFullYear()`, `getMonth() + 1` and `getDate()` of a
`Date` holding that day.  Month and day are 1-based. -/
def civilFromDays (z : Nat) : Nat × Nat × Nat :=
  let yr := yearSplit (z + 1) 1970 z
  let mr := monthSplit (monthLengths yr.1) 1 yr.2
  (yr.1, mr.1, mr.2 + 1)

def msPerDay : Nat := 86400000

/-- Day number (days since the epoch, UTC) of a millisecond timestamp. -/
def dayNumber (t : Nat) : Nat :=
  t / msPerDay

/-- Day key of a civil date, exactly the template
`year-month-day` built at analytics.ts line 227 (no zero padding, month
1-based). -/
def civilKey (z : Nat) : String :=
  natStr (civilFromDays z).1 ++ "-" ++ natStr (civilFromDays z).2.1 ++ "-"
    ++ natStr (civilFromDays z).2.2

/-- The grouping key of a record's start timestamp used by
`getOwnerAnalyticsSummary` (analytics.ts lines 226-227). -/
def dayKey (t : Nat) : String :=
  civilKey (dayNumber t)

/-- Decimal parse of a digits-only string (the characters of `s`), used to
recognise and order numeric property keys. -/
def parseDec (s : String) : Option Nat :=
  if !s.data.isEmpty && s.data.all (fun c => c.isDigit)
  then some (s.data.foldl (fun n c => n * 10 + (c.toNat - 48)) 0)
  else none

/-- Whether a string is a canonical array-index property key in the sense of
the ECMAScript specification: the canonical decimal numeral of some
`n < 2^32 - 1`.  Such keys of a plain object are enumerated first, in
ascending numeric order, by `Object.entries`. -/
def isArrayIndexKey (s : String) : Bool :=
  match parseDec s with
  | some n => natStr n == s && decide (n < 4294967295)
  | none => false

/-- Numeric value of an array-index key (0 on other strings, unused there). -/
def jsKeyNum (s : String) : Nat :=
  (parseDec s).getD 0

/-- `Object.entries` of a plain JavaScript object whose properties were
created in the order of the list: array-index keys first in ascending
numeric order, then the remaining keys in property creation order. -/
def objectEntries {α : Type} (m : List (String × α)) : List (String × α) :=
  (m.filter (fun p => isArrayIndexKey p.1)).insertionSort
      (fun p q => jsKeyNum p.1 ≤ jsKeyNum q.1)
    ++ m.filter (fun p => !isArrayIndexKey p.1)

/-- The key order `Object.entries` produces, on the keys alone. -/
def jsKeyOrder (ks : List String) : List String :=
  (ks.filter isArrayIndexKey).insertionSort (fun a b => jsKeyNum a ≤ jsKeyNum b)
    ++ ks.filter (fun k => !isArrayIndexKey k)

/-- The zero-guarded percentage `started > 0 ? completed / started * 100 : 0`
used for tour-level and step-level completion rates. -/
def rate (completed started : Nat) : Rat :=
  if 0 < started then (completed : Rat) / (started : Rat) * 100 else 0

structure StepRate where
  stepId : String
  completionRate : Rat
deriving DecidableEq, Repr

structure TourAnalytics where
  totalStarted : Nat
  totalCompleted : Nat
  completionRate : Rat
  stepCompletionRates : List StepRate
deriving DecidableEq, Repr

/-- The records returned by the `by_tour` index query for one tour id, in
creation order. -/
def tourRecords (db : List AnalyticsRecord) (tourId : String) : List AnalyticsRecord :=
  db.filter (fun r => r.tourId == tourId)

/-- The per-entry bucket update of the step-completion loop (analytics.ts
lines 126-129): increment `started`, and `completed` when the entry's
completion timestamp is truthy. -/
def scUpd (e : StepEntry) (c : Nat × Nat) : Nat × Nat :=
  (c.1 + 1, if truthyNum e.completedAt then c.2 + 1 else c.2)

/-- The own properties of the plain `stepCompletion` object built by
`getTourAnalytics` (analytics.ts lines 116-131): outer loop over records,
inner loop over their entries, with the plain-object prototype-chain
semantics of `jsObjStep` — a step identifier that names an
`Object.prototype` property reads truthy, skips the initialisation and
never becomes an own property. -/
def stepCompletion (analytics : List AnalyticsRecord) : List (String × (Nat × Nat)) :=
  analytics.foldl
    (fun m r => r.stepProgress.foldl (jsObjStep (fun e => e.stepId) (0, 0) scUpd) m) []

/-- `getTourAnalytics` (analytics.ts lines 99-150) as a function of the
database contents and the queried tour id. -/
def getTourAnalytics (db : List AnalyticsRecord) (tourId : String) : TourAnalytics :=
  let analytics := tourRecords db tourId
  let totalStarted := analytics.length
  let totalCompleted := (analytics.filter (fun a => truthyNum a.completedAt)).length
  { totalStarted := totalStarted
    totalCompleted := totalCompleted
    completionRate := rate totalCompleted totalStarted
    stepCompletionRates :=
      (objectEntries (stepCompletion analytics)).map
        (fun p => { stepId := p.1, completionRate := rate p.2.2 p.2.1 }) }

/-- All Step Progress Entries of a tour's records, in iteration order of the
nested loops of `getTourAnalytics`. -/
def tourEntries (db : List AnalyticsRecord) (tourId : String) : List StepEntry :=
  ((tourRecords db tourId).map (fun r => r.stepProgress)).flatten

/-- One `tours` document as the analytics queries consume it. -/
structure TourDoc where
  id : String
  name : String
  ownerId : String
  steps : Option (List String)
deriving DecidableEq, Repr

structure Activity where
  id : Nat
  user : String
  action : String
  target : String
  timestamp : Nat
deriving DecidableEq, Repr

/-- Display-name resolution of `getRecentActivity` (analytics.ts lines
163-171): `ctx.db.get(record.tourId as Id)` may throw on an invalid id
string (caught, `.error`), return no document (`.ok none`) or return the
tour; any failure leaves the `Unknown Tour` sentinel. -/
def resolveTourName (lookup : String → Except Unit (Option TourDoc)) (tourId : String) : String :=
  match lookup tourId with
  | .error _ => "Unknown Tour"
  | .ok none => "Unknown Tour"
  | .ok (some tour) => tour.name

/-- The activity row built for one record (analytics.ts lines 173-179);
`record.userId || 'Anonymous'` is falsy exactly on the empty string. -/
def mkActivity (lookup : String → Except Unit (Option TourDoc)) (r : AnalyticsRecord) : Activity :=
  { id := r.id
    user := if r.userId == "" then "Anonymous" else r.userId
    action := if truthyNum r.completedAt then "completed" else "started"
    target := resolveTourName lookup r.tourId
    timestamp := r.creationTime }

/-- `getRecentActivity` (analytics.ts lines 153-185): the 10 most recently
created records (`order('desc').take(10)` over the creation-ordered table),
each mapped to an activity row. -/
def getRecentActivity (db : List AnalyticsRecord)
    (lookup : String → Except Unit (Option TourDoc)) : List Activity :=
  ((db.reverse).take 10).map (mkActivity lookup)

/-- The `byDay` map of `getOwnerAnalyticsSummary` (analytics.ts lines
224-229): counts records per day key of their start timestamp, keys in
insertion order. -/
def byDay (recent : List AnalyticsRecord) : List (String × Nat) :=
  recent.foldl (jsStep (fun r => dayKey r.startedAt) 0 (fun _ v => v + 1)) []

structure DayCount where
  date : String
  completions : Nat
deriving DecidableEq, Repr

/-- The `completionsByDay` result (analytics.ts lines 231-234): first seven
map entries, reversed. -/
def completionsByDay (recent : List AnalyticsRecord) : List DayCount :=
  (((byDay recent).take 7).reverse).map (fun p => { date := p.1, completions := p.2 })

/-- The global recent window of `getOwnerAnalyticsSummary` (analytics.ts
lines 220-223): `order('desc').take(50)` over the creation-ordered table,
with no owner scoping. -/
def recent50 (db : List AnalyticsRecord) : List AnalyticsRecord :=
  (db.reverse).take 50

/-- Specification-side view of the recent window: the day number of each
record's start timestamp, newest record first. -/
def windowDays (db : List AnalyticsRecord) : List Nat :=
  (recent50 db).map (fun r => dayNumber r.startedAt)

/-- Specification-side view of the emitted buckets: the first seven distinct
day numbers of the window, i.e. the seven most recent calendar days, newest
first. -/
def selectedDays (db : List AnalyticsRecord) : List Nat :=
  (firstSeen [] (windowDays db)).take 7

structure PerTourStat where
  tourId : String
  name : String
  completionRate : Rat
  stepsCount : Nat
deriving DecidableEq, Repr

structure OwnerSummary where
  perTour : List PerTourStat
  completionsByDay : List DayCount
deriving DecidableEq, Repr

/-- `getOwnerAnalyticsSummary` (analytics.ts lines 188-238): an owner-scoped
per-tour loop, and a day bucketing of the global 50-record recent window. -/
def getOwnerAnalyticsSummary (db : List AnalyticsRecord) (tours : List TourDoc)
    (ownerId : String) : OwnerSummary :=
  { perTour :=
      (tours.filter (fun t => t.ownerId == ownerId)).map (fun tour =>
        let analytics := db.filter (fun r => r.tourId == tour.id)
        { tourId := tour.id
          name := tour.name
          completionRate :=
            rate ((analytics.filter (fun a => truthyNum a.completedAt)).length)
              analytics.length
          stepsCount := match tour.steps with | some l => l.length | none => 0 })
    completionsByDay := completionsByDay (recent50 db) }

/-- One `steps` document as `deleteStep` consumes it. -/
structure StepDoc where
  id : Nat
  tourId : String
  order : Nat
deriving DecidableEq, Repr

/-- The steps of one tour retrieved through the `by_tourId_order` index:
ascending `order`. -/
def stepsByTourOrder (steps : List StepDoc) (tourId : String) : List StepDoc :=
  (steps.filter (fun s => s.tourId == tourId)).insertionSort (fun a b => a.order ≤ b.order)

/-- The re-sequencing loop of `deleteStep`: for each position `i` of the
remaining steps, patch that step's `order` to `i + 1`. -/
def applyOrderPatches (db : List StepDoc) : List StepDoc → Nat → List StepDoc
  | [], _ => db
  | s :: rest, i =>
    applyOrderPatches (db.map (fun d => if d.id == s.id then { d with order := i + 1 } else d))
      rest (i + 1)

/-- `deleteStep` of the tours module: requires an authenticated caller that
owns the step's tour, deletes the step, then renumbers the remaining steps
of that tour to consecutive ordinals starting at 1.  `tours` maps a tour id
to its `userId`. -/
def deleteStep (steps : List StepDoc) (tours : List (String × String))
    (identity : Option String) (targetId : Nat) : Except String (List StepDoc) :=
  match identity with
  | none => .error "Unauthorized"
  | some uid =>
    match steps.find? (fun s => s.id == targetId) with
    | none => .error "Not found"
    | some target =>
      match (tours.find? (fun t => t.1 == target.tourId)).map Prod.snd with
      | none => .error "Unauthorized"
      | some owner =>
        if owner == uid then
          let afterDelete := steps.filter (fun s => !(s.id == targetId))
          .ok (applyOrderPatches afterDelete (stepsByTourOrder afterDelete target.tourId) 0)
        else .error "Unauthorized"

/-- Example record builder for concrete instantiations. -/
def mkRec (n : Nat) (c : Option Nat) : AnalyticsRecord :=
  { id := n, tourId := "T", userId := "u", startedAt := n, completedAt := c,
    abandonedAt := none, stepProgress := [], creationTime := n }

/-- Ten records for tour `T`, four of them completed. -/
def exDb10 : List AnalyticsRecord :=
  [mkRec 0 (some 5), mkRec 1 (some 6), mkRec 2 (some 7), mkRec 3 (some 8),
   mkRec 4 none, mkRec 5 none, mkRec 6 none, mkRec 7 none, mkRec 8 none, mkRec 9 none]

/-- One record whose entries carry the array-index step identifiers `2`
then `1`. -/
def exDbNumericSteps : List AnalyticsRecord :=
  [{ id := 1, tourId := "T", userId := "u", startedAt := 1, completedAt := none,
     abandonedAt := none,
     stepProgress := [{ stepId := "2", startedAt := 1, completedAt := some 1 },
                      { stepId := "1", startedAt := 1, completedAt := some 1 }],
     creationTime := 1 }]

/-- One record with a step identifier naming an `Object.prototype` property
(`toString`) next to an ordinary one. -/
def exDbProtoStep : List AnalyticsRecord :=
  [{ id := 1, tourId := "T", userId := "u", startedAt := 1, completedAt := none,
     abandonedAt := none,
     stepProgress := [{ stepId := "toString", startedAt := 1, completedAt := some 1 },
                      { stepId := "welcome", startedAt := 1, completedAt := some 1 }],
     creationTime := 1 }]

/-- Two records started on consecutive calendar days. -/
def exDbDays : List AnalyticsRecord :=
  [{ id := 0, tourId := "T", userId := "u", startedAt := 1000, completedAt := none,
     abandonedAt := none, stepProgress := [], creationTime := 1000 },
   { id := 1, tourId := "T", userId := "u", startedAt := 86400005, completedAt := none,
     abandonedAt := none, stepProgress := [], creationTime := 86400005 }]

/-- A five-step tour `t1`. -/
def exSteps : List StepDoc :=
  [{ id := 1, tourId := "t1", order := 1 }, { id := 2, tourId := "t1", order := 2 },
   { id := 3, tourId := "t1", order := 3 }, { id := 4, tourId := "t1", order := 4 },
   { id := 5, tourId := "t1", order := 5 }]

theorem completeStepEntries_eq_rec (sp : List StepEntry) (s : String) (now : Nat) :
    completeStepEntries sp s now = completeStepEntriesRec sp s now := by
  induction sp with
  | nil => rfl
  | cons e rest ih =>
    by_cases h : e.stepId = s
    · simp [completeStepEntries, completeStepEntriesRec, List.findIdx?_cons, h]
    · rw [completeStepEntries, List.findIdx?_cons]
      have hb : (e.stepId == s) = false := by simp [h]
      rw [completeStepEntriesRec, hb, ← ih, completeStepEntries]
      simp only [Bool.false_eq_true, if_false, List.findIdx?_succ]
      cases hfi : List.findIdx? (fun x => x.stepId == s) rest with
      | none => simp
      | some i => simp [List.getD_cons_succ]

/-- C4: when a `stepProgress` entry for the step already exists,
`completeStep` rewrites exactly that (first matching) entry, setting only its
completion timestamp to the call time — its start timestamp and identifier
are kept, the call's own start time is discarded, no entry is added, and
every other entry is unchanged. -/
theorem completeStep_existing_entry (sp : List StepEntry) (s : String) (now : Nat)
    (h : ∃ e ∈ sp, e.stepId = s) :
    ∃ pre e post, sp = pre ++ e :: post ∧ e.stepId = s ∧ (∀ e2 ∈ pre, e2.stepId ≠ s) ∧
      completeStepEntries sp s now
        = pre ++ { e with completedAt := some now } :: post ∧
      (completeStepEntries sp s now).length = sp.length := by
  rw [completeStepEntries_eq_rec]
  induction sp with
  | nil => simp at h
  | cons a rest ih =>
    by_cases ha : a.stepId = s
    · refine ⟨[], a, rest, rfl, ha, by simp, ?_, ?_⟩
      · simp [completeStepEntriesRec, ha]
      · simp [completeStepEntriesRec, ha]
    · obtain ⟨e, he, hes⟩ := h
      rcases List.mem_cons.mp he with rfl | he2
      · exact absurd hes ha
      · obtain ⟨pre, e2, post, hsp, hid, hpre, heq, hlen⟩ := ih ⟨e, he2, hes⟩
        refine ⟨a :: pre, e2, post, by rw [List.cons_append, hsp], hid, ?_, ?_, ?_⟩
        · intro x hx
          rcases List.mem_cons.mp hx with rfl | hx2
          · exact ha
          · exact hpre x hx2
        · have hb : (a.stepId == s) = false := by simp [ha]
          rw [completeStepEntriesRec, hb]
          simp only [Bool.false_eq_true, if_false, List.cons_append]
          rw [heq]
        · have hb : (a.stepId == s) = false := by simp [ha]
          rw [completeStepEntriesRec, hb]
          simp only [Bool.false_eq_true, if_false, List.length_cons, hlen]

/-- Witness for `completeStep_existing_entry` at a record that already holds
an entry for step `s1`. -/
theorem completeStep_existing_entry_witness :
    (∃ e ∈ [({ stepId := "s1", startedAt := 1, completedAt := some 1 } : StepEntry),
            { stepId := "s2", startedAt := 2, completedAt := none }], e.stepId = "s1") ∧
    ∃ pre e post,
      [({ stepId := "s1", startedAt := 1, completedAt := some 1 } : StepEntry),
       { stepId := "s2", startedAt := 2, completedAt := none }] = pre ++ e :: post ∧
      e.stepId = "s1" ∧ (∀ e2 ∈ pre, e2.stepId ≠ "s1") ∧
      completeStepEntries
          [{ stepId := "s1", startedAt := 1, completedAt := some 1 },
           { stepId := "s2", startedAt := 2, completedAt := none }] "s1" 9
        = pre ++ { e with completedAt := some 9 } :: post ∧
      (completeStepEntries
          [{ stepId := "s1", startedAt := 1, completedAt := some 1 },
           { stepId := "s2", startedAt := 2, completedAt := none }] "s1" 9).length
        = ([({ stepId := "s1", startedAt := 1, completedAt := some 1 } : StepEntry),
            { stepId := "s2", startedAt := 2, completedAt := none }] : List StepEntry).length :=
  ⟨by decide, completeStep_existing_entry _ "s1" 9 (by decide)⟩

theorem keys_completeStepEntriesRec (sp : List StepEntry) (s : String) (now : Nat) :
    (completeStepEntriesRec sp s now).map (fun e => e.stepId)
      = if s ∈ sp.map (fun e => e.stepId) then sp.map (fun e => e.stepId)
        else sp.map (fun e => e.stepId) ++ [s] := by
  induction sp with
  | nil => simp [completeStepEntriesRec]
  | cons e rest ih =>
    by_cases h : e.stepId = s
    · simp [completeStepEntriesRec, h]
    · have hb : (e.stepId == s) = false := by simp [h]
      have hne : s ≠ e.stepId := fun hc => h hc.symm
      rw [completeStepEntriesRec, hb]
      simp only [Bool.false_eq_true, if_false, List.map_cons, ih]
      by_cases hr : s ∈ rest.map (fun e => e.stepId)
      · rw [if_pos hr, if_pos (List.mem_cons.mpr (Or.inr hr))]
      · have hno : s ∉ e.stepId :: rest.map (fun e => e.stepId) := by
          rw [List.mem_cons]
          rintro (hc | hc)
          · exact hne hc
          · exact hr hc
        rw [if_neg hr, if_neg hno, List.cons_append]

theorem mem_firstSeen {α : Type} [DecidableEq α] (ks : List α) :
    ∀ (acc : List α) (x : α), x ∈ firstSeen acc ks ↔ x ∈ acc ∨ x ∈ ks := by
  induction ks with
  | nil => simp [firstSeen]
  | cons k ks ih =>
    intro acc x
    rw [firstSeen, ih]
    by_cases hk : k ∈ acc
    · simp only [if_pos hk, List.mem_cons]
      constructor
      · rintro (hx | hx)
        · exact Or.inl hx
        · exact Or.inr (Or.inr hx)
      · rintro (hx | rfl | hx)
        · exact Or.inl hx
        · exact Or.inl hk
        · exact Or.inr hx
    · simp only [if_neg hk, List.mem_append, List.mem_singleton, List.mem_cons]
      tauto

theorem nodup_firstSeen {α : Type} [DecidableEq α] (ks : List α) :
    ∀ acc : List α, acc.Nodup → (firstSeen acc ks).Nodup := by
  induction ks with
  | nil => exact fun acc h => h
  | cons k ks ih =>
    intro acc hacc
    rw [firstSeen]
    by_cases hk : k ∈ acc
    · rw [if_pos hk]
      exact ih _ hacc
    · rw [if_neg hk]
      refine ih _ ?_
      rw [List.nodup_append]
      refine ⟨hacc, List.nodup_singleton k, ?_⟩
      intro a ha hb
      rw [List.mem_singleton] at hb
      subst hb
      exact hk ha

theorem mem_firstSeenObj (ks : List String) :
    ∀ (acc : List String) (x : String),
      x ∈ firstSeenObj acc ks ↔ x ∈ acc ∨ (x ∈ ks ∧ x ∉ protoKeys) := by
  induction ks with
  | nil => simp [firstSeenObj]
  | cons k ks ih =>
    intro acc x
    rw [firstSeenObj, ih]
    by_cases hk : k ∈ acc ∨ k ∈ protoKeys
    · rw [if_pos hk]
      constructor
      · rintro (hx | ⟨hx, hxp⟩)
        · exact Or.inl hx
        · exact Or.inr ⟨List.mem_cons.mpr (Or.inr hx), hxp⟩
      · rintro (hx | ⟨hx, hxp⟩)
        · exact Or.inl hx
        · rcases List.mem_cons.mp hx with rfl | hx2
          · rcases hk with hk2 | hk2
            · exact Or.inl hk2
            · exact absurd hk2 hxp
          · exact Or.inr ⟨hx2, hxp⟩
    · rw [if_neg hk]
      push_neg at hk
      constructor
      · rintro (hx | ⟨hx, hxp⟩)
        · rcases List.mem_append.mp hx with hx2 | hx2
          · exact Or.inl hx2
          · rw [List.mem_singleton] at hx2
            subst hx2
            exact Or.inr ⟨List.mem_cons_self _ _, hk.2⟩
        · exact Or.inr ⟨List.mem_cons.mpr (Or.inr hx), hxp⟩
      · rintro (hx | ⟨hx, hxp⟩)
        · exact Or.inl (List.mem_append.mpr (Or.inl hx))
        · rcases List.mem_cons.mp hx with rfl | hx2
          · exact Or.inl (List.mem_append.mpr (Or.inr (List.mem_singleton.mpr rfl)))
          · exact Or.inr ⟨hx2, hxp⟩

theorem nodup_firstSeenObj (ks : List String) :
    ∀ acc : List String, acc.Nodup → (firstSeenObj acc ks).Nodup := by
  induction ks with
  | nil => exact fun acc h => h
  | cons k ks ih =>
    intro acc hacc
    rw [firstSeenObj]
    by_cases hk : k ∈ acc ∨ k ∈ protoKeys
    · rw [if_pos hk]
      exact ih _ hacc
    · rw [if_neg hk]
      push_neg at hk
      refine ih _ ?_
      rw [List.nodup_append]
      refine ⟨hacc, List.nodup_singleton k, ?_⟩
      intro a ha hb
      rw [List.mem_singleton] at hb
      subst hb
      exact hk.1 ha

theorem stepProgress_runCompleteSteps (calls : List (String × Nat)) :
    ∀ r : AnalyticsRecord,
      (runCompleteSteps r calls).stepProgress.map (fun e => e.stepId)
        = firstSeen (r.stepProgress.map (fun e => e.stepId)) (calls.map Prod.fst) := by
  induction calls with
  | nil => intro r; rfl
  | cons c cs ih =>
    intro r
    have h1 : runCompleteSteps r (c :: cs)
        = runCompleteSteps { r with
            stepProgress := completeStepEntries r.stepProgress c.1 c.2 } cs := rfl
    rw [h1, ih { r with stepProgress := completeStepEntries r.stepProgress c.1 c.2 }]
    show firstSeen ((completeStepEntries r.stepProgress c.1 c.2).map (fun e => e.stepId))
        (cs.map Prod.fst)
      = firstSeen (r.stepProgress.map (fun e => e.stepId)) ((c :: cs).map Prod.fst)
    rw [List.map_cons, firstSeen, completeStepEntries_eq_rec, keys_completeStepEntriesRec]

theorem countP_beq_of_nodup {α : Type} [BEq α] [LawfulBEq α] (l : List α) (h : l.Nodup)
    (s : α) : l.countP (fun x => x == s) = if s ∈ l then 1 else 0 := by
  induction l with
  | nil => simp
  | cons a l ih =>
    have hal : a ∉ l := (List.nodup_cons.mp h).1
    have hl := ih (List.nodup_cons.mp h).2
    rw [List.countP_cons]
    by_cases has : a = s
    · subst has
      simp [hal, hl]
    · have hf : (a == s) = false := by simp [has]
      simp only [hf, Bool.false_eq_true, if_false, Nat.add_zero, hl]
      by_cases hs : s ∈ l
      · rw [if_pos hs, if_pos (List.mem_cons.mpr (Or.inr hs))]
      · have hno : s ∉ a :: l := by
          rw [List.mem_cons]
          rintro (rfl | hc)
          · exact has rfl
          · exact hs hc
        rw [if_neg hs, if_neg hno]

/-- C1: starting from any Progress Record whose `stepProgress` satisfies the
uniqueness invariant (so in particular from the empty collection `startTour`
creates), any finite sequence of `completeStep` calls — any step
identifiers, any order, with repetitions — leaves exactly one entry per
distinct step identifier that was completed or already present, and never
more than one entry per step identifier. -/
theorem completeStep_unique_entries (r : AnalyticsRecord) (calls : List (String × Nat))
    (hinv : (r.stepProgress.map (fun e => e.stepId)).Nodup) :
    ∀ s : String,
      (runCompleteSteps r calls).stepProgress.countP (fun e => e.stepId == s)
        = if s ∈ r.stepProgress.map (fun e => e.stepId) ∨ s ∈ calls.map Prod.fst
          then 1 else 0 := by
  intro s
  have hkeys := stepProgress_runCompleteSteps calls r
  have hcnt : (runCompleteSteps r calls).stepProgress.countP (fun e => e.stepId == s)
      = ((runCompleteSteps r calls).stepProgress.map (fun e => e.stepId)).countP
          (fun k => k == s) := by
    rw [List.countP_map]
    rfl
  rw [hcnt, hkeys, countP_beq_of_nodup _ (nodup_firstSeen _ _ hinv) s]
  by_cases hs : s ∈ firstSeen (r.stepProgress.map (fun e => e.stepId)) (calls.map Prod.fst)
  · rw [if_pos hs, if_pos ((mem_firstSeen _ _ _).mp hs)]
  · rw [if_neg hs, if_neg (fun hc => hs ((mem_firstSeen _ _ _).mpr hc))]

/-- Witness for `completeStep_unique_entries`: three calls, one repeated, on
a fresh record leave one entry for `a` and one for `b`. -/
theorem completeStep_unique_entries_witness :
    ((startTourRecord 0 "T" "u" 1).stepProgress.map (fun e => e.stepId)).Nodup ∧
    (runCompleteSteps (startTourRecord 0 "T" "u" 1)
        [("a", 2), ("b", 3), ("a", 4)]).stepProgress.countP (fun e => e.stepId == "a")
      = if "a" ∈ (startTourRecord 0 "T" "u" 1).stepProgress.map (fun e => e.stepId)
            ∨ "a" ∈ [("a", 2), ("b", 3), ("a", 4)].map Prod.fst
        then 1 else 0 :=
  ⟨List.nodup_nil,
    completeStep_unique_entries (startTourRecord 0 "T" "u" 1)
      [("a", 2), ("b", 3), ("a", 4)] List.nodup_nil "a"⟩

theorem dbGet_dbPatch (db : List AnalyticsRecord) (i : Nat)
    (f : AnalyticsRecord → AnalyticsRecord) (r : AnalyticsRecord)
    (hid : ∀ r2, (f r2).id = r2.id) (h : dbGet db i = some r) :
    dbPatch db i f = .ok (db.map (fun r2 => if r2.id == i then f r2 else r2)) ∧
    dbGet (db.map (fun r2 => if r2.id == i then f r2 else r2)) i = some (f r) := by
  refine ⟨by rw [dbPatch, h], ?_⟩
  induction db with
  | nil => simp [dbGet, List.find?] at h
  | cons a rest ih =>
    cases hai : (a.id == i) with
    | true =>
      have hra : a = r := by
        have h2 : dbGet (a :: rest) i = some a := by
          rw [dbGet, List.find?_cons, hai]
        rw [h] at h2
        exact (Option.some.inj h2).symm
      have hfa : ((f a).id == i) = true := by
        rw [hid a]
        exact hai
      rw [List.map_cons, if_pos hai, dbGet, List.find?_cons, hfa, hra]
    | false =>
      have h2 : dbGet rest i = some r := by
        rw [dbGet] at h ⊢
        rw [List.find?_cons, hai] at h
        exact h
      rw [List.map_cons, if_neg (by simp [hai]), dbGet, List.find?_cons, hai]
      exact ih h2

/-- The database-level mutations refine the record-level transition model
`applyOp`: when the target exists, each mutation succeeds and the stored
document afterwards is exactly `applyOp` of the document read before. -/
theorem mutations_refine_applyOp (db : List AnalyticsRecord) (i : Nat)
    (r : AnalyticsRecord) (s : String) (now : Nat) (h : dbGet db i = some r) :
    (∃ db2, completeStep db i s now = .ok (db2, i)
      ∧ dbGet db2 i = some (applyOp r (TrackerOp.completeStep s now))) ∧
    (∃ db2, completeTour db i now = .ok (db2, i)
      ∧ dbGet db2 i = some (applyOp r (TrackerOp.completeTour now))) ∧
    (∃ db2, abandonTour db i now = .ok (db2, i)
      ∧ dbGet db2 i = some (applyOp r (TrackerOp.abandonTour now))) := by
  refine ⟨?_, ?_, ?_⟩
  · obtain ⟨hp, hg⟩ := dbGet_dbPatch db i
      (fun r2 => { r2 with stepProgress := completeStepEntries r.stepProgress s now })
      r (fun r2 => rfl) h
    refine ⟨_, ?_, hg⟩
    rw [completeStep, h]
    show Except.map (fun db2 => (db2, i))
        (dbPatch db i
          (fun r2 => { r2 with stepProgress := completeStepEntries r.stepProgress s now }))
      = _
    rw [hp]
    rfl
  · obtain ⟨hp, hg⟩ := dbGet_dbPatch db i
      (fun r2 => { r2 with completedAt := some now }) r (fun r2 => rfl) h
    refine ⟨_, ?_, hg⟩
    rw [completeTour, hp]
    rfl
  · obtain ⟨hp, hg⟩ := dbGet_dbPatch db i
      (fun r2 => { r2 with abandonedAt := some now }) r (fun r2 => rfl) h
    refine ⟨_, ?_, hg⟩
    rw [abandonTour, hp]
    rfl

theorem completedAt_runOps_of_no_completeTour (ops : List TrackerOp) :
    ∀ r : AnalyticsRecord, ops.all (fun op => ! op.isCompleteTour) = true →
      (runOps r ops).completedAt = r.completedAt := by
  induction ops with
  | nil => exact fun r _ => rfl
  | cons op ops ih =>
    intro r h
    rw [List.all_cons, Bool.and_eq_true] at h
    have hstep : runOps r (op :: ops) = runOps (applyOp r op) ops := rfl
    rw [hstep, ih _ h.2]
    cases op with
    | completeStep s now => rfl
    | completeTour now => simp [TrackerOp.isCompleteTour] at h
    | abandonTour now => rfl

theorem abandonedAt_runOps_of_no_abandonTour (ops : List TrackerOp) :
    ∀ r : AnalyticsRecord, ops.all (fun op => ! op.isAbandonTour) = true →
      (runOps r ops).abandonedAt = r.abandonedAt := by
  induction ops with
  | nil => exact fun r _ => rfl
  | cons op ops ih =>
    intro r h
    rw [List.all_cons, Bool.and_eq_true] at h
    have hstep : runOps r (op :: ops) = runOps (applyOp r op) ops := rfl
    rw [hstep, ih _ h.2]
    cases op with
    | completeStep s now => rfl
    | completeTour now => rfl
    | abandonTour now => simp [TrackerOp.isAbandonTour] at h

/-- Counterexample to C2 as stated: the record created by `startTour` and
then hit by `completeTour` at time 5 and `abandonTour` at time 6 — a
sequence the interface permits — carries both terminal timestamps at once,
because neither mutation guards against the other. -/
theorem terminal_states_not_exclusive :
    (runOps (startTourRecord 0 "t" "u" 1)
        [TrackerOp.completeTour 5, TrackerOp.abandonTour 6]).completedAt = some 5 ∧
    (runOps (startTourRecord 0 "t" "u" 1)
        [TrackerOp.completeTour 5, TrackerOp.abandonTour 6]).abandonedAt = some 6 :=
  ⟨rfl, rfl⟩

/-- C2 (amended): a record reached from `startTour` by a sequence of
`completeStep`, `completeTour` and `abandonTour` calls that does not contain
both kinds of terminal call never has its completion and abandonment
timestamps set simultaneously; with both kinds present the code sets both,
as nothing clears or guards the other timestamp. -/
theorem runOps_terminal_exclusive (i : Nat) (t u : String) (n0 : Nat) (ops : List TrackerOp)
    (h : ops.all (fun op => ! op.isCompleteTour) = true
        ∨ ops.all (fun op => ! op.isAbandonTour) = true) :
    ¬((runOps (startTourRecord i t u n0) ops).completedAt.isSome = true
      ∧ (runOps (startTourRecord i t u n0) ops).abandonedAt.isSome = true) := by
  rintro ⟨hc, ha⟩
  rcases h with h | h
  · rw [completedAt_runOps_of_no_completeTour ops _ h] at hc
    simp [startTourRecord] at hc
  · rw [abandonedAt_runOps_of_no_abandonTour ops _ h] at ha
    simp [startTourRecord] at ha

/-- Witness for `runOps_terminal_exclusive`: a step completion followed by an
abandonment contains no `completeTour`, and indeed does not terminate the
record in both states. -/
theorem runOps_terminal_exclusive_witness :
    ([TrackerOp.completeStep "a" 2, TrackerOp.abandonTour 3].all
        (fun op => ! op.isCompleteTour) = true
      ∨ [TrackerOp.completeStep "a" 2, TrackerOp.abandonTour 3].all
        (fun op => ! op.isAbandonTour) = true) ∧
    ¬((runOps (startTourRecord 0 "t" "u" 1)
          [TrackerOp.completeStep "a" 2, TrackerOp.abandonTour 3]).completedAt.isSome = true
      ∧ (runOps (startTourRecord 0 "t" "u" 1)
          [TrackerOp.completeStep "a" 2, TrackerOp.abandonTour 3]).abandonedAt.isSome = true) :=
  ⟨Or.inl (by decide), runOps_terminal_exclusive 0 "t" "u" 1 _ (Or.inl (by decide))⟩

/-- C10: `completeTour` patches exactly the completion timestamp and
`abandonTour` exactly the abandonment timestamp of the targeted record; the
start timestamp, step progress, tour and user references, identifiers and
the other terminal timestamp are all left unchanged — in particular
`completeTour` on an already-abandoned record keeps its `abandonedAt`. -/
theorem completeTour_abandonTour_frame (r : AnalyticsRecord) (now : Nat) :
    (applyOp r (TrackerOp.completeTour now)).completedAt = some now ∧
    (applyOp r (TrackerOp.completeTour now)).abandonedAt = r.abandonedAt ∧
    (applyOp r (TrackerOp.completeTour now)).startedAt = r.startedAt ∧
    (applyOp r (TrackerOp.completeTour now)).stepProgress = r.stepProgress ∧
    (applyOp r (TrackerOp.completeTour now)).tourId = r.tourId ∧
    (applyOp r (TrackerOp.completeTour now)).userId = r.userId ∧
    (applyOp r (TrackerOp.completeTour now)).id = r.id ∧
    (applyOp r (TrackerOp.completeTour now)).creationTime = r.creationTime ∧
    (applyOp r (TrackerOp.abandonTour now)).abandonedAt = some now ∧
    (applyOp r (TrackerOp.abandonTour now)).completedAt = r.completedAt ∧
    (applyOp r (TrackerOp.abandonTour now)).startedAt = r.startedAt ∧
    (applyOp r (TrackerOp.abandonTour now)).stepProgress = r.stepProgress ∧
    (applyOp r (TrackerOp.abandonTour now)).tourId = r.tourId ∧
    (applyOp r (TrackerOp.abandonTour now)).userId = r.userId ∧
    (applyOp r (TrackerOp.abandonTour now)).id = r.id ∧
    (applyOp r (TrackerOp.abandonTour now)).creationTime = r.creationTime :=
  ⟨rfl, rfl, rfl, rfl, rfl, rfl, rfl, rfl, rfl, rfl, rfl, rfl, rfl, rfl, rfl, rfl⟩

/-- C6: when no record exists for the given id, `completeStep` fails with
its `Analytics record not found` error before any write, and
`completeTour`/`abandonTour` fail through the store's patch-on-missing
error; an `.error` result models a thrown exception surfaced to the caller,
with no state change. -/
theorem notFound_fatal (db : List AnalyticsRecord) (i : Nat) (s : String) (now : Nat)
    (h : dbGet db i = none) :
    completeStep db i s now = .error "Analytics record not found" ∧
    completeTour db i now = .error "patch: document not found" ∧
    abandonTour db i now = .error "patch: document not found" := by
  refine ⟨?_, ?_, ?_⟩ <;>
    simp [completeStep, completeTour, abandonTour, dbPatch, h, Except.map]

/-- Witness for `notFound_fatal` on the empty store. -/
theorem notFound_fatal_witness :
    dbGet [] 0 = none ∧
    (completeStep [] 0 "s" 5 = .error "Analytics record not found" ∧
     completeTour [] 0 5 = .error "patch: document not found" ∧
     abandonTour [] 0 5 = .error "patch: document not found") :=
  ⟨rfl, notFound_fatal [] 0 "s" 5 rfl⟩

theorem map_fst_jsUpdate {α : Type} (m : List (String × α)) (k : String) (f : α → α) :
    (jsUpdate m k f).map Prod.fst = m.map Prod.fst := by
  induction m with
  | nil => rfl
  | cons p ps ih =>
    show ((if p.1 == k then (p.1, f p.2) else p).1) :: (jsUpdate ps k f).map Prod.fst
        = p.1 :: ps.map Prod.fst
    rw [ih]
    congr 1
    split <;> rfl

theorem any_key_iff {α : Type} (m : List (String × α)) (k : String) :
    m.any (fun p => p.1 == k) = true ↔ k ∈ m.map Prod.fst := by
  rw [List.any_eq_true, List.mem_map]
  constructor
  · rintro ⟨p, hp, hpk⟩
    exact ⟨p, hp, by simpa using hpk⟩
  · rintro ⟨p, hp, hpk⟩
    exact ⟨p, hp, by simpa using hpk⟩

theorem map_fst_jsStep {β α : Type} (key : β → String) (v0 : α) (upd : β → α → α)
    (m : List (String × α)) (e : β) :
    (jsStep key v0 upd m e).map Prod.fst
      = if key e ∈ m.map Prod.fst then m.map Prod.fst
        else m.map Prod.fst ++ [key e] := by
  rw [jsStep, map_fst_jsUpdate, jsGetOrInit]
  by_cases h : key e ∈ m.map Prod.fst
  · rw [if_pos ((any_key_iff m (key e)).mpr h), if_pos h]
  · rw [if_neg (fun hc => h ((any_key_iff m (key e)).mp hc)), if_neg h, List.map_append]
    rfl

theorem map_fst_jsGroup {β α : Type} (key : β → String) (v0 : α) (upd : β → α → α)
    (es : List β) :
    ∀ m : List (String × α),
      (jsGroup key v0 upd m es).map Prod.fst
        = firstSeen (m.map Prod.fst) (es.map key) := by
  induction es with
  | nil => exact fun m => rfl
  | cons e es ih =>
    intro m
    rw [jsGroup, ih (jsStep key v0 upd m e), map_fst_jsStep, List.map_cons, firstSeen]

theorem lookupKey_jsUpdate_self {α : Type} (m : List (String × α)) (k : String) (f : α → α) :
    lookupKey (jsUpdate m k f) k = (lookupKey m k).map f := by
  induction m with
  | nil => rfl
  | cons p ps ih =>
    cases hpk : (p.1 == k) with
    | true =>
      simp only [jsUpdate, List.map_cons, hpk, if_true, lookupKey, List.find?_cons]
      simp [hpk]
    | false =>
      simp only [jsUpdate, List.map_cons, hpk, Bool.false_eq_true, if_false, lookupKey,
        List.find?_cons, hpk]
      exact ih

theorem lookupKey_jsUpdate_other {α : Type} (m : List (String × α)) (k k2 : String)
    (f : α → α) (h : k2 ≠ k) :
    lookupKey (jsUpdate m k f) k2 = lookupKey m k2 := by
  induction m with
  | nil => rfl
  | cons p ps ih =>
    cases hpk : (p.1 == k) with
    | true =>
      have hp2 : (p.1 == k2) = false := by
        rw [beq_iff_eq] at hpk
        rw [hpk]
        exact beq_eq_false_iff_ne.mpr (Ne.symm h)
      simp only [jsUpdate, List.map_cons, hpk, if_true, lookupKey, List.find?_cons, hp2]
      exact ih
    | false =>
      simp only [jsUpdate, List.map_cons, hpk, Bool.false_eq_true, if_false, lookupKey,
        List.find?_cons]
      cases hp2 : (p.1 == k2) with
      | true => rfl
      | false => exact ih

theorem lookupKey_append_single {α : Type} (m : List (String × α)) (k : String) (v : α) :
    lookupKey (m ++ [(k, v)]) k = some ((lookupKey m k).getD v) := by
  rw [lookupKey, List.find?_append]
  cases hf : m.find? (fun p => p.1 == k) with
  | none => simp [lookupKey, hf, List.find?]
  | some p => simp [lookupKey, hf, Option.or]

theorem lookupKey_append_single_other {α : Type} (m : List (String × α)) (k k2 : String)
    (v : α) (h : k2 ≠ k) :
    lookupKey (m ++ [(k, v)]) k2 = lookupKey m k2 := by
  rw [lookupKey, List.find?_append]
  cases hf : m.find? (fun p => p.1 == k2) with
  | none =>
    have hkk : (k == k2) = false := beq_eq_false_iff_ne.mpr (Ne.symm h)
    simp [lookupKey, hf, List.find?, hkk, Option.or]
  | some p => simp [lookupKey, hf, Option.or]

theorem lookupKey_jsStep_self {β α : Type} (key : β → String) (v0 : α) (upd : β → α → α)
    (m : List (String × α)) (e : β) :
    lookupKey (jsStep key v0 upd m e) (key e)
      = some (upd e ((lookupKey m (key e)).getD v0)) := by
  rw [jsStep, lookupKey_jsUpdate_self, jsGetOrInit]
  by_cases h : m.any (fun p => p.1 == key e) = true
  · rw [if_pos h]
    have hsome : (lookupKey m (key e)).isSome = true := by
      rw [lookupKey]
      have hf : (m.find? (fun p => p.1 == key e)).isSome = true :=
        List.find?_isSome.mpr (List.any_eq_true.mp h)
      simpa using hf
    cases hl : lookupKey m (key e) with
    | none => rw [hl] at hsome; simp at hsome
    | some v => simp [hl]
  · rw [if_neg h, lookupKey_append_single]
    rfl

theorem lookupKey_jsStep_other {β α : Type} (key : β → String) (v0 : α) (upd : β → α → α)
    (m : List (String × α)) (e : β) (k : String) (h : k ≠ key e) :
    lookupKey (jsStep key v0 upd m e) k = lookupKey m k := by
  rw [jsStep, lookupKey_jsUpdate_other _ _ _ _ h, jsGetOrInit]
  by_cases ha : m.any (fun p => p.1 == key e) = true
  · rw [if_pos ha]
  · rw [if_neg ha, lookupKey_append_single_other _ _ _ _ h]

theorem lookupKey_jsGroup {β α : Type} (key : β → String) (v0 : α) (upd : β → α → α)
    (es : List β) :
    ∀ (m : List (String × α)) (k : String),
      lookupKey (jsGroup key v0 upd m es) k
        = if k ∈ es.map key ∨ (lookupKey m k).isSome = true
          then some ((es.filter (fun e => key e == k)).foldl (fun v e => upd e v)
              ((lookupKey m k).getD v0))
          else none := by
  induction es with
  | nil =>
    intro m k
    cases hl : lookupKey m k with
    | none => simp [jsGroup, hl]
    | some v => simp [jsGroup, hl]
  | cons e es ih =>
    intro m k
    rw [jsGroup, ih (jsStep key v0 upd m e) k]
    by_cases hk : k = key e
    · subst hk
      rw [lookupKey_jsStep_self]
      rw [if_pos (Or.inr (@Option.isSome_some _ (upd e ((lookupKey m (key e)).getD v0))))]
      have hmemc : key e ∈ (e :: es).map key := by
        rw [List.map_cons]
        exact List.mem_cons_self _ _
      rw [if_pos (Or.inl hmemc)]
      have hfil : (e :: es).filter (fun e2 => key e2 == key e) =
          e :: es.filter (fun e2 => key e2 == key e) := by
        simp [List.filter_cons]
      rw [hfil, List.foldl_cons]
      rfl
    · rw [lookupKey_jsStep_other _ _ _ _ _ _ hk]
      have hmem : (k ∈ (e :: es).map key) ↔ k ∈ es.map key := by
        rw [List.map_cons, List.mem_cons]
        simp [hk]
      have hfil : (e :: es).filter (fun e2 => key e2 == k) =
          es.filter (fun e2 => key e2 == k) := by
        have hne : (key e == k) = false := beq_eq_false_iff_ne.mpr (Ne.symm hk)
        simp [List.filter_cons, hne]
      rw [hfil]
      by_cases hc : k ∈ es.map key ∨ (lookupKey m k).isSome = true
      · rw [if_pos hc, if_pos (by rw [hmem]; exact hc)]
      · rw [if_neg hc, if_neg (by rw [hmem]; exact hc)]

theorem foldl_jsStep_eq_jsGroup {β α : Type} (key : β → String) (v0 : α) (upd : β → α → α)
    (es : List β) :
    ∀ m : List (String × α), es.foldl (jsStep key v0 upd) m = jsGroup key v0 upd m es := by
  induction es with
  | nil => exact fun m => rfl
  | cons e es ih => exact fun m => ih (jsStep key v0 upd m e)

theorem lookupKey_nil {α : Type} (k : String) :
    lookupKey ([] : List (String × α)) k = none := rfl

theorem lookupKey_isSome_iff {α : Type} (m : List (String × α)) (k : String) :
    (lookupKey m k).isSome = true ↔ k ∈ m.map Prod.fst := by
  rw [lookupKey, Option.isSome_map', List.find?_isSome, ← List.any_eq_true, any_key_iff]

theorem map_fst_jsObjStep {β α : Type} (key : β → String) (v0 : α) (upd : β → α → α)
    (m : List (String × α)) (e : β) :
    (jsObjStep key v0 upd m e).map Prod.fst
      = if key e ∈ m.map Prod.fst ∨ key e ∈ protoKeys then m.map Prod.fst
        else m.map Prod.fst ++ [key e] := by
  rw [jsObjStep, map_fst_jsUpdate, jsObjGetOrInit]
  have hiff : (m.any (fun p => p.1 == key e) = true ∨ key e ∈ protoKeys)
      ↔ (key e ∈ m.map Prod.fst ∨ key e ∈ protoKeys) := by
    rw [any_key_iff]
  by_cases h : key e ∈ m.map Prod.fst ∨ key e ∈ protoKeys
  · rw [if_pos (hiff.mpr h), if_pos h]
  · rw [if_neg (fun hc => h (hiff.mp hc)), if_neg h, List.map_append]
    rfl

theorem map_fst_jsObjGroup {β α : Type} (key : β → String) (v0 : α) (upd : β → α → α)
    (es : List β) :
    ∀ m : List (String × α),
      (jsObjGroup key v0 upd m es).map Prod.fst
        = firstSeenObj (m.map Prod.fst) (es.map key) := by
  induction es with
  | nil => exact fun m => rfl
  | cons e es ih =>
    intro m
    rw [jsObjGroup, ih (jsObjStep key v0 upd m e), map_fst_jsObjStep, List.map_cons,
      firstSeenObj]

theorem lookupKey_jsObjStep_self {β α : Type} (key : β → String) (v0 : α) (upd : β → α → α)
    (m : List (String × α)) (e : β) :
    lookupKey (jsObjStep key v0 upd m e) (key e)
      = if key e ∈ m.map Prod.fst ∨ key e ∉ protoKeys
        then some (upd e ((lookupKey m (key e)).getD v0))
        else none := by
  rw [jsObjStep, lookupKey_jsUpdate_self, jsObjGetOrInit]
  by_cases hown : key e ∈ m.map Prod.fst
  · rw [if_pos (Or.inl ((any_key_iff m (key e)).mpr hown)), if_pos (Or.inl hown)]
    have hsome : (lookupKey m (key e)).isSome = true :=
      (lookupKey_isSome_iff m (key e)).mpr hown
    cases hl : lookupKey m (key e) with
    | none => rw [hl] at hsome; simp at hsome
    | some v => simp [hl]
  · by_cases hproto : key e ∈ protoKeys
    · rw [if_pos (Or.inr hproto)]
      have hnone : lookupKey m (key e) = none := by
        cases hl : lookupKey m (key e) with
        | none => rfl
        | some v =>
          exact absurd ((lookupKey_isSome_iff m (key e)).mp (by rw [hl]; rfl)) hown
      rw [hnone, if_neg (fun hc => hc.elim hown (fun hnp => hnp hproto))]
      rfl
    · rw [if_neg (fun hc => hc.elim (fun ha => hown ((any_key_iff m (key e)).mp ha)) hproto),
        lookupKey_append_single, if_pos (Or.inr hproto)]
      rfl

theorem lookupKey_jsObjStep_other {β α : Type} (key : β → String) (v0 : α) (upd : β → α → α)
    (m : List (String × α)) (e : β) (k : String) (h : k ≠ key e) :
    lookupKey (jsObjStep key v0 upd m e) k = lookupKey m k := by
  rw [jsObjStep, lookupKey_jsUpdate_other _ _ _ _ h, jsObjGetOrInit]
  by_cases ha : m.any (fun p => p.1 == key e) = true ∨ key e ∈ protoKeys
  · rw [if_pos ha]
  · rw [if_neg ha, lookupKey_append_single_other _ _ _ _ h]

theorem lookupKey_jsObjGroup {β α : Type} (key : β → String) (v0 : α) (upd : β → α → α)
    (es : List β) :
    ∀ (m : List (String × α)) (k : String),
      lookupKey (jsObjGroup key v0 upd m es) k
        = if (k ∈ es.map key ∧ k ∉ protoKeys) ∨ (lookupKey m k).isSome = true
          then some ((es.filter (fun e => key e == k)).foldl (fun v e => upd e v)
              ((lookupKey m k).getD v0))
          else none := by
  induction es with
  | nil =>
    intro m k
    cases hl : lookupKey m k with
    | none => simp [jsObjGroup, hl]
    | some v => simp [jsObjGroup, hl]
  | cons e es ih =>
    intro m k
    rw [jsObjGroup, ih (jsObjStep key v0 upd m e) k]
    by_cases hk : k = key e
    · subst hk
      rw [lookupKey_jsObjStep_self]
      by_cases hcase : key e ∈ m.map Prod.fst ∨ key e ∉ protoKeys
      · rw [if_pos hcase,
          if_pos (Or.inr (@Option.isSome_some _ (upd e ((lookupKey m (key e)).getD v0))))]
        have houter : (key e ∈ (e :: es).map key ∧ key e ∉ protoKeys)
            ∨ (lookupKey m (key e)).isSome = true := by
          rcases hcase with hown | hnp
          · exact Or.inr ((lookupKey_isSome_iff m (key e)).mpr hown)
          · refine Or.inl ⟨?_, hnp⟩
            rw [List.map_cons]
            exact List.mem_cons_self _ _
        rw [if_pos houter]
        have hfil : (e :: es).filter (fun e2 => key e2 == key e) =
            e :: es.filter (fun e2 => key e2 == key e) := by
          simp [List.filter_cons]
        rw [hfil, List.foldl_cons]
        rfl
      · rw [if_neg hcase]
        push_neg at hcase
        have hinner : ¬((key e ∈ es.map key ∧ key e ∉ protoKeys)
            ∨ (none : Option (α)).isSome = true) := by
          rintro (⟨hmem, hnp⟩ | hs)
          · exact hnp hcase.2
          · simp at hs
        rw [if_neg hinner]
        have houter : ¬((key e ∈ (e :: es).map key ∧ key e ∉ protoKeys)
            ∨ (lookupKey m (key e)).isSome = true) := by
          rintro (⟨hmem, hnp⟩ | hs)
          · exact hnp hcase.2
          · exact hcase.1 ((lookupKey_isSome_iff m (key e)).mp hs)
        rw [if_neg houter]
    · rw [lookupKey_jsObjStep_other _ _ _ _ _ _ hk]
      have hmem : (k ∈ (e :: es).map key) ↔ k ∈ es.map key := by
        rw [List.map_cons, List.mem_cons]
        simp [hk]
      have hfil : (e :: es).filter (fun e2 => key e2 == k) =
          es.filter (fun e2 => key e2 == k) := by
        have hne : (key e == k) = false := beq_eq_false_iff_ne.mpr (Ne.symm hk)
        simp [List.filter_cons, hne]
      rw [hfil]
      by_cases hc : (k ∈ es.map key ∧ k ∉ protoKeys) ∨ (lookupKey m k).isSome = true
      · have hc2 : (k ∈ (e :: es).map key ∧ k ∉ protoKeys)
            ∨ (lookupKey m k).isSome = true := by
          rcases hc with ⟨h1, h2⟩ | hs
          · exact Or.inl ⟨hmem.mpr h1, h2⟩
          · exact Or.inr hs
        rw [if_pos hc, if_pos hc2]
      · have hc2 : ¬((k ∈ (e :: es).map key ∧ k ∉ protoKeys)
            ∨ (lookupKey m k).isSome = true) := by
          rintro (⟨h1, h2⟩ | hs)
          · exact hc (Or.inl ⟨hmem.mp h1, h2⟩)
          · exact hc (Or.inr hs)
        rw [if_neg hc, if_neg hc2]

theorem foldl_jsObjStep_eq_jsObjGroup {β α : Type} (key : β → String) (v0 : α)
    (upd : β → α → α) (es : List β) :
    ∀ m : List (String × α),
      es.foldl (jsObjStep key v0 upd) m = jsObjGroup key v0 upd m es := by
  induction es with
  | nil => exact fun m => rfl
  | cons e es ih => exact fun m => ih (jsObjStep key v0 upd m e)

theorem foldl_scUpd (l : List StepEntry) :
    ∀ ab : Nat × Nat,
      l.foldl (fun v e => scUpd e v) ab
        = (ab.1 + l.length, ab.2 + l.countP (fun e => truthyNum e.completedAt)) := by
  induction l with
  | nil => intro ab; simp
  | cons e l ih =>
    intro ab
    rw [List.foldl_cons, ih, List.countP_cons, List.length_cons]
    cases ht : truthyNum e.completedAt <;> simp [scUpd, ht, Prod.ext_iff] <;> omega

theorem stepCompletion_eq_jsObjGroup (analytics : List AnalyticsRecord) :
    stepCompletion analytics
      = jsObjGroup (fun e => e.stepId) (0, 0) scUpd []
          ((analytics.map (fun r => r.stepProgress)).flatten) := by
  rw [stepCompletion, ← foldl_jsObjStep_eq_jsObjGroup, List.foldl_flatten, List.foldl_map]

theorem lookupKey_stepCompletion (analytics : List AnalyticsRecord) (k : String) :
    lookupKey (stepCompletion analytics) k
      = if k ∈ ((analytics.map (fun r => r.stepProgress)).flatten).map (fun e => e.stepId)
            ∧ k ∉ protoKeys
        then some
          (((analytics.map (fun r => r.stepProgress)).flatten).countP
              (fun e => e.stepId == k),
            ((analytics.map (fun r => r.stepProgress)).flatten).countP
              (fun e => e.stepId == k && truthyNum e.completedAt))
        else none := by
  rw [stepCompletion_eq_jsObjGroup, lookupKey_jsObjGroup]
  simp only [lookupKey_nil, Option.getD_none, Option.isSome_none, Bool.false_eq_true, or_false]
  by_cases hm : k ∈ ((analytics.map (fun r => r.stepProgress)).flatten).map
      (fun e => e.stepId) ∧ k ∉ protoKeys
  · rw [if_pos hm, if_pos hm, foldl_scUpd, List.countP_filter]
    have hsw : List.countP (fun a => truthyNum a.completedAt && a.stepId == k)
          ((analytics.map (fun r => r.stepProgress)).flatten)
        = List.countP (fun e => e.stepId == k && truthyNum e.completedAt)
          ((analytics.map (fun r => r.stepProgress)).flatten) := by
      refine List.countP_congr ?_
      intro a ha
      rw [Bool.and_comm]
    rw [hsw]
    simp [List.countP_eq_length_filter]
  · rw [if_neg hm, if_neg hm]

/-- C3: `getTourAnalytics` returns `totalStarted` equal to the number of
Progress Records of the tour, `totalCompleted` equal to the number of those
with a completion timestamp set (nonzero, as every `Date.now()` stamp is),
and `completionRate` equal to `totalCompleted / totalStarted * 100`, with
the explicit zero guard giving `0` (not `NaN`) on an empty tour. -/
theorem getTourAnalytics_totals (db : List AnalyticsRecord) (tourId : String)
    (hpos : ∀ r ∈ db, r.completedAt ≠ some 0) :
    (getTourAnalytics db tourId).totalStarted = (tourRecords db tourId).length ∧
    (getTourAnalytics db tourId).totalCompleted
      = ((tourRecords db tourId).filter (fun r => r.completedAt.isSome)).length ∧
    (getTourAnalytics db tourId).completionRate
      = if (tourRecords db tourId).length = 0 then 0
        else (((tourRecords db tourId).filter
              (fun r => r.completedAt.isSome)).length : Rat)
            / ((tourRecords db tourId).length : Rat) * 100 := by
  have hfil : (tourRecords db tourId).filter (fun a => truthyNum a.completedAt)
      = (tourRecords db tourId).filter (fun r => r.completedAt.isSome) := by
    apply List.filter_congr
    intro r hr
    have hdb : r ∈ db := (List.mem_filter.mp hr).1
    have hr0 := hpos r hdb
    cases hc : r.completedAt with
    | none => simp [truthyNum, hc]
    | some t =>
      have ht : t ≠ 0 := by
        intro h0
        rw [hc, h0] at hr0
        exact hr0 rfl
      simp [truthyNum, hc, ht]
  refine ⟨rfl, ?_, ?_⟩
  · show ((tourRecords db tourId).filter (fun a => truthyNum a.completedAt)).length = _
    rw [hfil]
  · show rate ((tourRecords db tourId).filter (fun a => truthyNum a.completedAt)).length
        (tourRecords db tourId).length = _
    rw [hfil, rate]
    by_cases h0 : (tourRecords db tourId).length = 0
    · rw [if_neg (by omega), if_pos h0]
    · rw [if_pos (by omega), if_neg h0]

/-- Witness for `getTourAnalytics_totals` on ten records of which four are
completed. -/
theorem getTourAnalytics_totals_witness :
    (∀ r ∈ exDb10, r.completedAt ≠ some 0) ∧
    ((getTourAnalytics exDb10 "T").totalStarted = (tourRecords exDb10 "T").length ∧
     (getTourAnalytics exDb10 "T").totalCompleted
       = ((tourRecords exDb10 "T").filter (fun r => r.completedAt.isSome)).length ∧
     (getTourAnalytics exDb10 "T").completionRate
       = if (tourRecords exDb10 "T").length = 0 then 0
         else (((tourRecords exDb10 "T").filter
               (fun r => r.completedAt.isSome)).length : Rat)
             / ((tourRecords exDb10 "T").length : Rat) * 100) :=
  ⟨by decide, getTourAnalytics_totals exDb10 "T" (by decide)⟩

/-- The worked example of the specification: ten records, four completed,
rate forty percent. -/
theorem getTourAnalytics_example_forty :
    (getTourAnalytics exDb10 "T").totalStarted = 10 ∧
    (getTourAnalytics exDb10 "T").totalCompleted = 4 ∧
    (getTourAnalytics exDb10 "T").completionRate = 40 := by
  refine ⟨by decide, by decide, ?_⟩
  show rate 4 10 = 40
  rw [rate, if_pos (by omega)]
  norm_num

theorem map_fst_orderedInsert {α : Type} (p : String × α) (l : List (String × α)) :
    (List.orderedInsert (fun a b => jsKeyNum a.1 ≤ jsKeyNum b.1) p l).map Prod.fst
      = List.orderedInsert (fun a b => jsKeyNum a ≤ jsKeyNum b) p.1 (l.map Prod.fst) := by
  induction l with
  | nil => rfl
  | cons q l ih =>
    by_cases h : jsKeyNum p.1 ≤ jsKeyNum q.1
    · simp [List.orderedInsert, h]
    · simp [List.orderedInsert, h, ih]

theorem map_fst_insertionSort {α : Type} (l : List (String × α)) :
    (l.insertionSort (fun a b => jsKeyNum a.1 ≤ jsKeyNum b.1)).map Prod.fst
      = (l.map Prod.fst).insertionSort (fun a b => jsKeyNum a ≤ jsKeyNum b) := by
  induction l with
  | nil => rfl
  | cons p l ih => simp [List.insertionSort, map_fst_orderedInsert, ih]

theorem map_fst_objectEntries {α : Type} (m : List (String × α)) :
    (objectEntries m).map Prod.fst = jsKeyOrder (m.map Prod.fst) := by
  rw [objectEntries, jsKeyOrder, List.map_append, map_fst_insertionSort,
    List.filter_map, List.filter_map]
  rfl

theorem objectEntries_perm {α : Type} (m : List (String × α)) :
    (objectEntries m).Perm m := by
  rw [objectEntries]
  have h1 := List.perm_insertionSort (fun a b : String × α => jsKeyNum a.1 ≤ jsKeyNum b.1)
    (m.filter (fun p => isArrayIndexKey p.1))
  have h2 := List.filter_append_perm (fun p => isArrayIndexKey p.1) m
  exact (h1.append_right _).trans h2

theorem jsKeyOrder_perm (ks : List String) : (jsKeyOrder ks).Perm ks := by
  rw [jsKeyOrder]
  have h1 := List.perm_insertionSort (fun a b : String => jsKeyNum a ≤ jsKeyNum b)
    (ks.filter isArrayIndexKey)
  have h2 := List.filter_append_perm isArrayIndexKey ks
  exact (h1.append_right _).trans h2

theorem lookupKey_of_mem {α : Type} (m : List (String × α)) :
    (m.map Prod.fst).Nodup → ∀ p ∈ m, lookupKey m p.1 = some p.2 := by
  induction m with
  | nil => intro _ p hp; simp at hp
  | cons q ps ih =>
    intro hn p hp
    rw [List.map_cons, List.nodup_cons] at hn
    rcases List.mem_cons.mp hp with rfl | hp2
    · simp [lookupKey, List.find?_cons]
    · have hne : (q.1 == p.1) = false := by
        refine beq_eq_false_iff_ne.mpr ?_
        intro hc
        exact hn.1 (hc ▸ List.mem_map.mpr ⟨p, hp2, rfl⟩)
      rw [lookupKey, List.find?_cons]
      simp only [hne]
      exact ih hn.2 p hp2

/-- Counterexample to C5 as stated: with the array-index step identifiers
`2` then `1`, `Object.entries` enumerates the buckets in ascending numeric
key order, so `getTourAnalytics` emits the pairs as `1`, `2` — not in
first-seen order `2`, `1`. -/
theorem stepRates_not_first_seen_order :
    ((getTourAnalytics exDbNumericSteps "T").stepCompletionRates.map
        (fun sr => sr.stepId)) = ["1", "2"] ∧
    firstSeen [] ((tourEntries exDbNumericSteps "T").map (fun e => e.stepId))
      = ["2", "1"] ∧
    (["1", "2"] : List String) ≠ ["2", "1"] := by
  refine ⟨by decide, by decide, by decide⟩

/-- A step identifier that names an `Object.prototype` property is dropped:
the inherited read is truthy, so the initialisation is skipped, no own
property is ever created, and `Object.entries` reports nothing for it —
here the fully completed `toString` step vanishes while the ordinary
`welcome` step is reported. -/
theorem stepRates_drop_inherited_ids :
    ((tourEntries exDbProtoStep "T").map (fun e => e.stepId))
        = ["toString", "welcome"] ∧
    ((getTourAnalytics exDbProtoStep "T").stepCompletionRates.map (fun sr => sr.stepId))
      = ["welcome"] := by
  refine ⟨by decide, by decide⟩

/-- C5 (amended): `getTourAnalytics` emits exactly one `stepId`/rate pair
per distinct step identifier seen across the tour's entries, except that an
identifier naming an `Object.prototype` property (such as `toString` or
`constructor`) reads truthy on the plain accumulator object, never becomes
an own property and is dropped from the result; the emitted pairs come in
JavaScript object key order — identifiers that are canonical array-index
numerals first in ascending numeric order, then the remaining identifiers in
first-seen order (still deterministic for identical input order) — and each
rate is completed over started times one hundred with the zero guard, where
an entry counts as started by existing and as completed by its (nonzero)
completion timestamp. -/
theorem stepCompletionRates_spec (db : List AnalyticsRecord) (tourId : String)
    (hpos : ∀ r ∈ db, ∀ e ∈ r.stepProgress, e.completedAt ≠ some 0) :
    ((getTourAnalytics db tourId).stepCompletionRates.map (fun sr => sr.stepId))
      = jsKeyOrder (firstSeenObj [] ((tourEntries db tourId).map (fun e => e.stepId))) ∧
    ((getTourAnalytics db tourId).stepCompletionRates.map (fun sr => sr.stepId)).Nodup ∧
    (∀ s : String,
      s ∈ (getTourAnalytics db tourId).stepCompletionRates.map (fun sr => sr.stepId)
        ↔ s ∈ (tourEntries db tourId).map (fun e => e.stepId) ∧ s ∉ protoKeys) ∧
    ∀ sr ∈ (getTourAnalytics db tourId).stepCompletionRates,
      sr.completionRate
        = if (tourEntries db tourId).countP (fun e => e.stepId == sr.stepId) = 0 then 0
          else ((tourEntries db tourId).countP
                (fun e => e.stepId == sr.stepId && e.completedAt.isSome) : Rat)
              / ((tourEntries db tourId).countP (fun e => e.stepId == sr.stepId) : Rat)
              * 100 := by
  have htruthy : ∀ e ∈ tourEntries db tourId,
      truthyNum e.completedAt = e.completedAt.isSome := by
    intro e he
    rcases List.mem_flatten.mp he with ⟨sp, hsp, hesp⟩
    rcases List.mem_map.mp hsp with ⟨r, hr, rfl⟩
    have hdb : r ∈ db := (List.mem_filter.mp hr).1
    have h0 := hpos r hdb e hesp
    cases hc : e.completedAt with
    | none => simp [truthyNum]
    | some t =>
      have ht : t ≠ 0 := by
        intro hz
        rw [hc, hz] at h0
        exact h0 rfl
      simp [truthyNum, ht]
  have hkeys : ((getTourAnalytics db tourId).stepCompletionRates.map (fun sr => sr.stepId))
      = jsKeyOrder (firstSeenObj [] ((tourEntries db tourId).map (fun e => e.stepId))) := by
    show (((objectEntries (stepCompletion (tourRecords db tourId))).map
        (fun p => ({ stepId := p.1, completionRate := rate p.2.2 p.2.1 } : StepRate))).map
          (fun sr => sr.stepId)) = _
    rw [List.map_map]
    have hcomp : ((fun sr : StepRate => sr.stepId) ∘
        (fun p : String × Nat × Nat =>
          ({ stepId := p.1, completionRate := rate p.2.2 p.2.1 } : StepRate)))
        = (Prod.fst : String × Nat × Nat → String) := rfl
    rw [hcomp, map_fst_objectEntries, stepCompletion_eq_jsObjGroup, map_fst_jsObjGroup]
    rfl
  have hnodupkeys : (firstSeenObj []
      ((tourEntries db tourId).map (fun e => e.stepId))).Nodup :=
    nodup_firstSeenObj _ [] List.nodup_nil
  refine ⟨hkeys, ?_, ?_, ?_⟩
  · rw [hkeys]
    exact ((jsKeyOrder_perm _).nodup_iff).mpr hnodupkeys
  · intro s
    rw [hkeys, (jsKeyOrder_perm _).mem_iff, mem_firstSeenObj]
    simp
  · intro sr hsr
    rcases List.mem_map.mp hsr with ⟨p, hp, rfl⟩
    have hpsc : p ∈ stepCompletion (tourRecords db tourId) :=
      (objectEntries_perm _).mem_iff.mp hp
    have hscnodup : ((stepCompletion (tourRecords db tourId)).map Prod.fst).Nodup := by
      rw [stepCompletion_eq_jsObjGroup, map_fst_jsObjGroup]
      exact nodup_firstSeenObj _ [] List.nodup_nil
    have hlook := lookupKey_of_mem _ hscnodup p hpsc
    rw [lookupKey_stepCompletion] at hlook
    by_cases hm : p.1 ∈ ((((tourRecords db tourId).map
        (fun r => r.stepProgress)).flatten).map (fun e => e.stepId)) ∧ p.1 ∉ protoKeys
    · rw [if_pos hm] at hlook
      have hp2 : p.2
          = (((tourEntries db tourId)).countP (fun e => e.stepId == p.1),
             ((tourEntries db tourId)).countP
               (fun e => e.stepId == p.1 && truthyNum e.completedAt)) :=
        (Option.some.inj hlook).symm
      have hcsw : (tourEntries db tourId).countP
            (fun e => e.stepId == p.1 && truthyNum e.completedAt)
          = (tourEntries db tourId).countP
            (fun e => e.stepId == p.1 && e.completedAt.isSome) := by
        refine List.countP_congr ?_
        intro e he
        rw [htruthy e he]
      show rate p.2.2 p.2.1 = _
      rw [hp2, rate]
      simp only
      rw [hcsw]
      by_cases h0 : (tourEntries db tourId).countP (fun e => e.stepId == p.1) = 0
      · rw [if_neg (by omega), if_pos h0]
      · rw [if_pos (by omega), if_neg h0]
    · rw [if_neg hm] at hlook
      exact Option.noConfusion hlook

/-- Witness for `stepCompletionRates_spec` at the two-identifier example
database. -/
theorem stepCompletionRates_spec_witness :
    (∀ r ∈ exDbNumericSteps, ∀ e ∈ r.stepProgress, e.completedAt ≠ some 0) ∧
    (((getTourAnalytics exDbNumericSteps "T").stepCompletionRates.map
        (fun sr => sr.stepId))
      = jsKeyOrder (firstSeenObj []
          ((tourEntries exDbNumericSteps "T").map (fun e => e.stepId))) ∧
    ((getTourAnalytics exDbNumericSteps "T").stepCompletionRates.map
        (fun sr => sr.stepId)).Nodup ∧
    (∀ s : String,
      s ∈ (getTourAnalytics exDbNumericSteps "T").stepCompletionRates.map
          (fun sr => sr.stepId)
        ↔ s ∈ (tourEntries exDbNumericSteps "T").map (fun e => e.stepId)
            ∧ s ∉ protoKeys) ∧
    ∀ sr ∈ (getTourAnalytics exDbNumericSteps "T").stepCompletionRates,
      sr.completionRate
        = if (tourEntries exDbNumericSteps "T").countP
              (fun e => e.stepId == sr.stepId) = 0 then 0
          else ((tourEntries exDbNumericSteps "T").countP
                (fun e => e.stepId == sr.stepId && e.completedAt.isSome) : Rat)
              / ((tourEntries exDbNumericSteps "T").countP
                (fun e => e.stepId == sr.stepId) : Rat) * 100) :=
  ⟨by decide, stepCompletionRates_spec exDbNumericSteps "T" (by decide)⟩

/-- C8: `getRecentActivity` never returns more than ten rows; the rows are
the most recently created records newest first; and when a record's tour
lookup throws (invalid reference) or finds nothing (deleted tour) the
resolved name falls back to the `Unknown Tour` sentinel instead of
propagating the failure — the query as modelled is total. -/
theorem getRecentActivity_spec (db : List AnalyticsRecord)
    (lookup : String → Except Unit (Option TourDoc))
    (hsorted : db.Pairwise (fun a b => a.creationTime ≤ b.creationTime)) :
    (getRecentActivity db lookup).length ≤ 10 ∧
    getRecentActivity db lookup = ((db.reverse).take 10).map (mkActivity lookup) ∧
    ((getRecentActivity db lookup).map (fun a => a.timestamp)).Pairwise
      (fun a b => b ≤ a) ∧
    ∀ r : AnalyticsRecord,
      (lookup r.tourId = .error () ∨ lookup r.tourId = .ok none) →
        (mkActivity lookup r).target = "Unknown Tour" := by
  refine ⟨?_, rfl, ?_, ?_⟩
  · rw [getRecentActivity, List.length_map]
    exact List.length_take_le 10 _
  · rw [getRecentActivity, List.map_map, List.pairwise_map]
    have hrev : (db.reverse).Pairwise (fun a b => b.creationTime ≤ a.creationTime) :=
      List.pairwise_reverse.mpr hsorted
    have htake : ((db.reverse).take 10).Pairwise
        (fun a b => b.creationTime ≤ a.creationTime) :=
      List.Pairwise.sublist (List.take_sublist 10 _) hrev
    exact htake.imp (fun h => h)
  · intro r hr
    rcases hr with h | h <;> simp [mkActivity, resolveTourName, h]

/-- Witness for `getRecentActivity_spec` on a two-record store whose tour
references resolve to nothing. -/
theorem getRecentActivity_spec_witness :
    (exDbDays.Pairwise (fun a b => a.creationTime ≤ b.creationTime)) ∧
    ((getRecentActivity exDbDays (fun _ => Except.ok none)).length ≤ 10 ∧
     getRecentActivity exDbDays (fun _ => Except.ok none)
       = ((exDbDays.reverse).take 10).map (mkActivity (fun _ => Except.ok none)) ∧
     ((getRecentActivity exDbDays (fun _ => Except.ok none)).map
        (fun a => a.timestamp)).Pairwise (fun a b => b ≤ a) ∧
     ∀ r : AnalyticsRecord,
       ((fun _ : String => (Except.ok none : Except Unit (Option TourDoc))) r.tourId
            = .error ()
         ∨ (fun _ : String => (Except.ok none : Except Unit (Option TourDoc))) r.tourId
            = .ok none) →
         (mkActivity (fun _ => Except.ok none) r).target = "Unknown Tour") :=
  ⟨by
    rw [exDbDays, List.pairwise_cons]
    refine ⟨?_, List.pairwise_singleton _ _⟩
    intro b hb
    rw [List.mem_singleton] at hb
    subst hb
    norm_num,
   getRecentActivity_spec exDbDays (fun _ => Except.ok none)
    (by
      rw [exDbDays, List.pairwise_cons]
      refine ⟨?_, List.pairwise_singleton _ _⟩
      intro b hb
      rw [List.mem_singleton] at hb
      subst hb
      norm_num)⟩

theorem findIdx?_id_member (rem : List StepDoc) :
    (rem.map (fun s => s.id)).Nodup →
    ∀ (n : Nat) (h : n < rem.length),
      rem.findIdx? (fun t : StepDoc => t.id == (rem.get ⟨n, h⟩).id) = some n := by
  induction rem with
  | nil => intro _ n h; exact absurd h (Nat.not_lt_zero n)
  | cons a rest ih =>
    intro hnd n h
    rw [List.map_cons, List.nodup_cons] at hnd
    cases n with
    | zero =>
      show (a :: rest).findIdx? (fun t : StepDoc => t.id == a.id) = some 0
      rw [List.findIdx?_cons]
      simp
    | succ n =>
      have hlt : n < rest.length := by simpa using h
      show (a :: rest).findIdx? (fun t : StepDoc => t.id == (rest.get ⟨n, hlt⟩).id)
        = some (n + 1)
      rw [List.findIdx?_cons]
      have hmem : (rest.get ⟨n, hlt⟩).id ∈ rest.map (fun s => s.id) :=
        List.mem_map.mpr ⟨_, List.get_mem _ _ _, rfl⟩
      have hne : (a.id == (rest.get ⟨n, hlt⟩).id) = false :=
        beq_eq_false_iff_ne.mpr (fun hc => hnd.1 (hc ▸ hmem))
      rw [hne]
      simp only [Bool.false_eq_true, if_false, List.findIdx?_succ]
      rw [ih hnd.2 n hlt]
      rfl

theorem applyOrderPatches_eq_map (rest : List StepDoc) :
    ∀ (db : List StepDoc) (i : Nat), (rest.map (fun s => s.id)).Nodup →
      applyOrderPatches db rest i
        = db.map (fun d =>
            match rest.findIdx? (fun s : StepDoc => s.id == d.id) with
            | some j => { d with order := i + j + 1 }
            | none => d) := by
  induction rest with
  | nil =>
    intro db i _
    rw [applyOrderPatches]
    exact (List.map_id db).symm
  | cons s rest ih =>
    intro db i hnd
    rw [List.map_cons, List.nodup_cons] at hnd
    rw [applyOrderPatches, ih _ (i + 1) hnd.2, List.map_map]
    apply List.map_congr_left
    intro d _
    by_cases hds : d.id = s.id
    · have hds2 : (d.id == s.id) = true := beq_iff_eq.mpr hds
      have hsd2 : (s.id == d.id) = true := beq_iff_eq.mpr hds.symm
      have hnone : rest.findIdx? (fun t : StepDoc => t.id == d.id) = none := by
        rw [List.findIdx?_eq_none_iff]
        intro x hx
        refine beq_eq_false_iff_ne.mpr ?_
        intro hc
        refine hnd.1 ?_
        rw [← hds, ← hc]
        exact List.mem_map.mpr ⟨x, hx, rfl⟩
      show (match rest.findIdx? (fun t : StepDoc =>
            t.id == (if (d.id == s.id) = true then
              ({ d with order := i + 1 } : StepDoc) else d).id) with
          | some j =>
            match if (d.id == s.id) = true then
                ({ d with order := i + 1 } : StepDoc) else d with
            | d2 => ({ d2 with order := i + 1 + j + 1 } : StepDoc)
          | none => if (d.id == s.id) = true then
              ({ d with order := i + 1 } : StepDoc) else d)
        = match (s :: rest).findIdx? (fun t : StepDoc => t.id == d.id) with
          | some j => { d with order := i + j + 1 }
          | none => d
      rw [if_pos hds2, List.findIdx?_cons, hsd2]
      show (match rest.findIdx? (fun t : StepDoc =>
            t.id == ({ d with order := i + 1 } : StepDoc).id) with
          | some j => ({ d with order := i + 1 + j + 1 } : StepDoc)
          | none => ({ d with order := i + 1 } : StepDoc))
        = match (if true = true then some 0
            else (rest.findIdx? (fun t : StepDoc => t.id == d.id) 1).map
              (fun i => i)) with
          | some j => ({ d with order := i + j + 1 } : StepDoc)
          | none => d
      have hpred : (fun t : StepDoc => t.id == ({ d with order := i + 1 } : StepDoc).id)
          = (fun t : StepDoc => t.id == d.id) := rfl
      rw [hpred, hnone, if_pos rfl]
    · have hds2 : (d.id == s.id) = false := beq_eq_false_iff_ne.mpr hds
      have hsd2 : (s.id == d.id) = false := beq_eq_false_iff_ne.mpr (Ne.symm hds)
      show (match rest.findIdx? (fun t : StepDoc =>
            t.id == (if (d.id == s.id) = true then
              ({ d with order := i + 1 } : StepDoc) else d).id) with
          | some j =>
            match if (d.id == s.id) = true then
                ({ d with order := i + 1 } : StepDoc) else d with
            | d2 => ({ d2 with order := i + 1 + j + 1 } : StepDoc)
          | none => if (d.id == s.id) = true then
              ({ d with order := i + 1 } : StepDoc) else d)
        = match (s :: rest).findIdx? (fun t : StepDoc => t.id == d.id) with
          | some j => { d with order := i + j + 1 }
          | none => d
      rw [List.findIdx?_cons, hsd2]
      simp only [hds2, Bool.false_eq_true, if_false, List.findIdx?_succ]
      cases hfi : rest.findIdx? (fun t : StepDoc => t.id == d.id) with
      | none => rfl
      | some j =>
        show ({ d with order := i + 1 + j + 1 } : StepDoc)
            = { d with order := i + (j + 1) + 1 }
        have harith : i + 1 + j + 1 = i + (j + 1) + 1 := by omega
        rw [harith]

theorem map_order_renumber (rem : List StepDoc)
    (hnd : (rem.map (fun s => s.id)).Nodup) :
    rem.map (fun s =>
        (match rem.findIdx? (fun t : StepDoc => t.id == s.id) with
          | some j => ({ s with order := 0 + j + 1 } : StepDoc)
          | none => s).order)
      = List.range' 1 rem.length := by
  apply List.ext_get
  · simp [List.length_range']
  · intro n h1 h2
    have hlen : n < rem.length := by simpa using h1
    rw [List.get_map]
    have hfi := findIdx?_id_member rem hnd n hlen
    show (match rem.findIdx? (fun t : StepDoc =>
          t.id == (rem.get ⟨n, hlen⟩).id) with
        | some j => ({ rem.get ⟨n, hlen⟩ with order := 0 + j + 1 } : StepDoc)
        | none => rem.get ⟨n, hlen⟩).order
      = (List.range' 1 rem.length).get ⟨n, h2⟩
    rw [hfi]
    show 0 + n + 1 = (List.range' 1 rem.length).get ⟨n, h2⟩
    rw [List.get_eq_getElem, List.getElem_range']
    show 0 + n + 1 = 1 + 1 * n
    omega

theorem length_filter_remove_id (l : List StepDoc) (target : StepDoc)
    (hnd : (l.map (fun s => s.id)).Nodup) (hmem : target ∈ l) :
    (l.filter (fun s => !(s.id == target.id))).length = l.length - 1 := by
  have hcount : l.countP (fun s => s.id == target.id) = 1 := by
    have h1 : l.countP (fun s => s.id == target.id)
        = (l.map (fun s => s.id)).countP (fun k => k == target.id) := by
      rw [List.countP_map]
      rfl
    rw [h1, countP_beq_of_nodup _ hnd,
      if_pos (List.mem_map.mpr ⟨target, hmem, rfl⟩)]
  have hsplit : l.length = l.countP (fun s => s.id == target.id)
      + l.countP (fun s => !(s.id == target.id)) := by
    simpa using List.length_eq_countP_add_countP (fun s => s.id == target.id) l
  rw [← List.countP_eq_length_filter]
  omega

/-- C9: after `deleteStep` removes one step from a tour with `n` steps, the
remaining `n - 1` steps of that tour carry exactly the ordinals `1..n-1`
(as a multiset of `order` values, dense with no gaps), whichever step was
removed; steps of other tours are untouched. -/
theorem deleteStep_resequences (steps : List StepDoc) (tours : List (String × String))
    (uid : String) (targetId : Nat) (target : StepDoc)
    (hids : (steps.map (fun s => s.id)).Nodup)
    (htg : target ∈ steps) (hid : target.id = targetId)
    (hauth : (tours.find? (fun t => t.1 == target.tourId)).map Prod.snd = some uid) :
    ∃ db2, deleteStep steps tours (some uid) targetId = .ok db2 ∧
      ((db2.filter (fun s => s.tourId == target.tourId)).map (fun s => s.order)).Perm
        (List.range' 1 ((steps.filter (fun s => s.tourId == target.tourId)).length - 1)) ∧
      (db2.filter (fun s => s.tourId == target.tourId)).length
        = (steps.filter (fun s => s.tourId == target.tourId)).length - 1 ∧
      ∀ d ∈ db2, d.tourId ≠ target.tourId → d ∈ steps := by
  have hfind : steps.find? (fun s => s.id == targetId) = some target := by
    have hex : (steps.find? (fun s => s.id == targetId)).isSome = true :=
      List.find?_isSome.mpr ⟨target, htg, by simp [hid]⟩
    cases hf : steps.find? (fun s => s.id == targetId) with
    | none => rw [hf] at hex; simp at hex
    | some a =>
      have ha := List.find?_some hf
      have hamem := List.mem_of_find?_eq_some hf
      have haeq : a = target := by
        refine List.inj_on_of_nodup_map hids hamem htg ?_
        rw [beq_iff_eq] at ha
        rw [ha, hid]
      rw [haeq]
  have hrun : deleteStep steps tours (some uid) targetId
      = .ok (applyOrderPatches (steps.filter (fun s => !(s.id == targetId)))
          (stepsByTourOrder (steps.filter (fun s => !(s.id == targetId))) target.tourId) 0) := by
    rw [deleteStep, hfind]
    show (match (tours.find? (fun t => t.1 == target.tourId)).map Prod.snd with
          | none => (Except.error "Unauthorized" : Except String (List StepDoc))
          | some owner =>
            if owner == uid then
              Except.ok (applyOrderPatches (steps.filter (fun s => !(s.id == targetId)))
                (stepsByTourOrder (steps.filter (fun s => !(s.id == targetId)))
                  target.tourId) 0)
            else Except.error "Unauthorized")
        = _
    rw [hauth]
    show (if uid == uid then
          Except.ok (applyOrderPatches (steps.filter (fun s => !(s.id == targetId)))
            (stepsByTourOrder (steps.filter (fun s => !(s.id == targetId)))
              target.tourId) 0)
        else Except.error "Unauthorized")
        = _
    rw [if_pos (beq_self_eq_true uid)]
  have hADnd : ((steps.filter (fun s => !(s.id == targetId))).map
      (fun s => s.id)).Nodup :=
    List.Nodup.sublist ((List.filter_sublist steps).map _) hids
  have hfilsub : (((steps.filter (fun s => !(s.id == targetId))).filter
      (fun s => s.tourId == target.tourId)).map (fun s => s.id)).Nodup :=
    List.Nodup.sublist ((List.filter_sublist _).map _) hADnd
  have hperm : (stepsByTourOrder (steps.filter (fun s => !(s.id == targetId)))
        target.tourId).Perm
      ((steps.filter (fun s => !(s.id == targetId))).filter
        (fun s => s.tourId == target.tourId)) := by
    rw [stepsByTourOrder]
    exact List.perm_insertionSort _ _
  have hrnd : ((stepsByTourOrder (steps.filter (fun s => !(s.id == targetId)))
      target.tourId).map (fun s => s.id)).Nodup :=
    ((hperm.map (fun s => s.id)).nodup_iff).mpr hfilsub
  have hpatch := applyOrderPatches_eq_map
    (stepsByTourOrder (steps.filter (fun s => !(s.id == targetId))) target.tourId)
    (steps.filter (fun s => !(s.id == targetId))) 0 hrnd
  have hGtour : ∀ d : StepDoc,
      (match (stepsByTourOrder (steps.filter (fun s => !(s.id == targetId)))
            target.tourId).findIdx? (fun s : StepDoc => s.id == d.id) with
        | some j => ({ d with order := 0 + j + 1 } : StepDoc)
        | none => d).tourId = d.tourId := by
    intro d
    cases (stepsByTourOrder (steps.filter (fun s => !(s.id == targetId)))
        target.tourId).findIdx? (fun s : StepDoc => s.id == d.id) <;> rfl
  have hfilmap : ((steps.filter (fun s => !(s.id == targetId))).map
        (fun d => match (stepsByTourOrder (steps.filter (fun s => !(s.id == targetId)))
              target.tourId).findIdx? (fun s : StepDoc => s.id == d.id) with
          | some j => ({ d with order := 0 + j + 1 } : StepDoc)
          | none => d)).filter (fun s => s.tourId == target.tourId)
      = ((steps.filter (fun s => !(s.id == targetId))).filter
          (fun s => s.tourId == target.tourId)).map
        (fun d => match (stepsByTourOrder (steps.filter (fun s => !(s.id == targetId)))
              target.tourId).findIdx? (fun s : StepDoc => s.id == d.id) with
          | some j => ({ d with order := 0 + j + 1 } : StepDoc)
          | none => d) := by
    rw [List.filter_map]
    congr 1
    apply List.filter_congr
    intro d _
    show ((match (stepsByTourOrder (steps.filter (fun s => !(s.id == targetId)))
            target.tourId).findIdx? (fun s : StepDoc => s.id == d.id) with
        | some j => ({ d with order := 0 + j + 1 } : StepDoc)
        | none => d).tourId == target.tourId) = (d.tourId == target.tourId)
    rw [hGtour d]
  have hlenf : (((steps.filter (fun s => !(s.id == targetId))).filter
        (fun s => s.tourId == target.tourId))).length
      = (steps.filter (fun s => s.tourId == target.tourId)).length - 1 := by
    have hcomm : (steps.filter (fun s => !(s.id == targetId))).filter
          (fun s => s.tourId == target.tourId)
        = (steps.filter (fun s => s.tourId == target.tourId)).filter
          (fun s => !(s.id == targetId)) := by
      rw [List.filter_filter, List.filter_filter]
      apply List.filter_congr
      intro d _
      rw [Bool.and_comm]
    rw [hcomm]
    have htnd : ((steps.filter (fun s => s.tourId == target.tourId)).map
        (fun s => s.id)).Nodup :=
      List.Nodup.sublist ((List.filter_sublist steps).map _) hids
    have htmem : target ∈ steps.filter (fun s => s.tourId == target.tourId) :=
      List.mem_filter.mpr ⟨htg, by simp⟩
    have hrm := length_filter_remove_id
      (steps.filter (fun s => s.tourId == target.tourId)) target htnd htmem
    rw [← hid]
    exact hrm
  refine ⟨_, hrun, ?_, ?_, ?_⟩
  · rw [hpatch, hfilmap, List.map_map]
    have hpm := (hperm.map (fun d =>
        ((fun d : StepDoc => match (stepsByTourOrder
              (steps.filter (fun s => !(s.id == targetId)))
              target.tourId).findIdx? (fun s : StepDoc => s.id == d.id) with
          | some j => ({ d with order := 0 + j + 1 } : StepDoc)
          | none => d) d).order)).symm
    refine hpm.trans ?_
    have hren := map_order_renumber
      (stepsByTourOrder (steps.filter (fun s => !(s.id == targetId))) target.tourId) hrnd
    have hlen : (stepsByTourOrder (steps.filter (fun s => !(s.id == targetId)))
          target.tourId).length
        = (steps.filter (fun s => s.tourId == target.tourId)).length - 1 := by
      rw [hperm.length_eq]
      exact hlenf
    rw [← hlen]
    exact hren ▸ List.Perm.refl _
  · rw [hpatch, hfilmap, List.length_map]
    exact hlenf
  · intro d hd hdne
    rw [hpatch] at hd
    rcases List.mem_map.mp hd with ⟨d0, hd0, rfl⟩
    have hd0t : d0.tourId ≠ target.tourId := by
      rw [hGtour d0] at hdne
      exact hdne
    have hnone : (stepsByTourOrder (steps.filter (fun s => !(s.id == targetId)))
        target.tourId).findIdx? (fun s : StepDoc => s.id == d0.id) = none := by
      rw [List.findIdx?_eq_none_iff]
      intro x hx
      refine beq_eq_false_iff_ne.mpr ?_
      intro hc
      have hxf : x ∈ (steps.filter (fun s => !(s.id == targetId))).filter
          (fun s => s.tourId == target.tourId) := hperm.mem_iff.mp hx
      have hxt : x.tourId = target.tourId := by
        have hmf := (List.mem_filter.mp hxf).2
        rwa [beq_iff_eq] at hmf
      have hxad : x ∈ steps.filter (fun s => !(s.id == targetId)) :=
        (List.mem_filter.mp hxf).1
      have hxd : x = d0 := List.inj_on_of_nodup_map hADnd hxad hd0 hc
      rw [← hxd] at hd0t
      exact hd0t hxt
    rw [hnone]
    exact (List.mem_filter.mp hd0).1

/-- Witness for `deleteStep_resequences`: deleting the middle step of the
five-step tour leaves the other four with ordinals one to four. -/
theorem deleteStep_resequences_witness :
    ((exSteps.map (fun s => s.id)).Nodup ∧
      ({ id := 3, tourId := "t1", order := 3 } : StepDoc) ∈ exSteps ∧
      ({ id := 3, tourId := "t1", order := 3 } : StepDoc).id = 3 ∧
      ([("t1", "owner")].find? (fun t => t.1 == "t1")).map Prod.snd = some "owner") ∧
    ∃ db2, deleteStep exSteps [("t1", "owner")] (some "owner") 3 = .ok db2 ∧
      ((db2.filter (fun s => s.tourId == "t1")).map (fun s => s.order)).Perm
        (List.range' 1 ((exSteps.filter (fun s => s.tourId == "t1")).length - 1)) ∧
      (db2.filter (fun s => s.tourId == "t1")).length
        = (exSteps.filter (fun s => s.tourId == "t1")).length - 1 ∧
      ∀ d ∈ db2, d.tourId ≠ "t1" → d ∈ exSteps :=
  ⟨⟨by decide, by decide, by decide, by decide⟩,
    deleteStep_resequences exSteps [("t1", "owner")] "owner" 3
      { id := 3, tourId := "t1", order := 3 } (by decide) (by decide) (by decide)
      (by decide)⟩

theorem firstSeen_map_inj {α β : Type} [DecidableEq α] [DecidableEq β] (g : α → β)
    (hg : Function.Injective g) (ks : List α) :
    ∀ acc : List α, firstSeen (acc.map g) (ks.map g) = (firstSeen acc ks).map g := by
  induction ks with
  | nil => exact fun acc => rfl
  | cons k ks ih =>
    intro acc
    rw [List.map_cons, firstSeen, firstSeen]
    by_cases hk : k ∈ acc
    · rw [if_pos (List.mem_map.mpr ⟨k, hk, rfl⟩), if_pos hk]
      exact ih acc
    · have hgk : g k ∉ acc.map g := by
        intro hc
        rcases List.mem_map.mp hc with ⟨a, ha, hga⟩
        exact hk (hg hga ▸ ha)
      have hsingle : (acc.map g) ++ [g k] = (acc ++ [k]).map g := by
        rw [List.map_append]
        rfl
      rw [if_neg hgk, if_neg hk, hsingle]
      exact ih (acc ++ [k])

theorem firstSeen_strict_desc (ks : List Nat) :
    ∀ acc : List Nat, ks.Pairwise (fun a b => b ≤ a) →
      acc.Pairwise (fun a b => b < a) → (∀ a ∈ acc, ∀ k ∈ ks, k ≤ a) →
      (firstSeen acc ks).Pairwise (fun a b => b < a) := by
  induction ks with
  | nil => exact fun acc _ hacc _ => hacc
  | cons k ks ih =>
    intro acc hks hacc hbound
    rw [List.pairwise_cons] at hks
    rw [firstSeen]
    by_cases hk : k ∈ acc
    · rw [if_pos hk]
      refine ih acc hks.2 hacc ?_
      intro a ha k2 hk2
      exact hbound a ha k2 (List.mem_cons.mpr (Or.inr hk2))
    · rw [if_neg hk]
      refine ih (acc ++ [k]) hks.2 ?_ ?_
      · rw [List.pairwise_append]
        refine ⟨hacc, List.pairwise_singleton _ _, ?_⟩
        intro a ha b hb
        rw [List.mem_singleton] at hb
        subst hb
        have hle := hbound a ha b (List.mem_cons_self _ _)
        rcases Nat.lt_or_ge b a with hlt | hge
        · exact hlt
        · have : a = b := by omega
          exact absurd (this ▸ ha) hk
      · intro a ha k2 hk2
        rcases List.mem_append.mp ha with ha2 | ha2
        · exact hbound a ha2 k2 (List.mem_cons.mpr (Or.inr hk2))
        · rw [List.mem_singleton] at ha2
          subst ha2
          exact hks.1 k2 hk2

theorem foldl_add_one {β : Type} (l : List β) :
    ∀ a : Nat, l.foldl (fun v _ => v + 1) a = a + l.length := by
  induction l with
  | nil => intro a; rfl
  | cons e l ih =>
    intro a
    rw [List.foldl_cons, ih, List.length_cons]
    omega

theorem byDay_eq_jsGroup (recent : List AnalyticsRecord) :
    byDay recent
      = jsGroup (fun r => dayKey r.startedAt) 0 (fun _ v => v + 1) [] recent := by
  rw [byDay, foldl_jsStep_eq_jsGroup]

theorem map_fst_byDay (recent : List AnalyticsRecord) :
    (byDay recent).map Prod.fst
      = firstSeen [] (recent.map (fun r => dayKey r.startedAt)) := by
  rw [byDay_eq_jsGroup, map_fst_jsGroup]
  rfl

theorem lookupKey_byDay (recent : List AnalyticsRecord) (k : String) :
    lookupKey (byDay recent) k
      = if k ∈ recent.map (fun r => dayKey r.startedAt)
        then some (recent.countP (fun r => dayKey r.startedAt == k))
        else none := by
  rw [byDay_eq_jsGroup, lookupKey_jsGroup]
  simp only [lookupKey_nil, Option.getD_none, Option.isSome_none, Bool.false_eq_true, or_false]
  by_cases hm : k ∈ recent.map (fun r => dayKey r.startedAt)
  · rw [if_pos hm, if_pos hm, foldl_add_one, Nat.zero_add, List.countP_eq_length_filter]
  · rw [if_neg hm, if_neg hm]

theorem daysInYear_ge (y : Nat) : 365 ≤ daysInYear y := by
  rw [daysInYear]
  split <;> omega

theorem yearSplit_char : ∀ (fuel y z : Nat), z < 365 * fuel →
    ∃ k r, yearSplit fuel y z = (y + k, r) ∧ r < daysInYear (y + k) ∧
      sumYearsFrom y k + r = z := by
  intro fuel
  induction fuel with
  | zero => intro y z h; omega
  | succ fuel ih =>
    intro y z h
    rw [yearSplit]
    by_cases hz : z < daysInYear y
    · refine ⟨0, z, ?_, ?_, ?_⟩
      · rw [if_pos hz]
        rfl
      · simpa using hz
      · simp [sumYearsFrom]
    · rw [if_neg hz]
      have hy := daysInYear_ge y
      have hlt : z - daysInYear y < 365 * fuel := by omega
      obtain ⟨k, r, heq, hr, hsum⟩ := ih (y + 1) (z - daysInYear y) hlt
      refine ⟨k + 1, r, ?_, ?_, ?_⟩
      · rw [heq]
        have harith : y + 1 + k = y + (k + 1) := by omega
        rw [harith]
      · have harith : y + 1 + k = y + (k + 1) := by omega
        rw [← harith]
        exact hr
      · have hdef : sumYearsFrom y (k + 1) = daysInYear y + sumYearsFrom (y + 1) k := rfl
        rw [hdef]
        omega

theorem monthSplit_char : ∀ (lens : List Nat) (m r : Nat), r < lens.sum →
    ∃ j rr, monthSplit lens m r = (m + j, rr) ∧ j < lens.length ∧
      rr < lens.getD j 0 ∧ (lens.take j).sum + rr = r := by
  intro lens
  induction lens with
  | nil => intro m r h; simp at h
  | cons len rest ih =>
    intro m r h
    rw [monthSplit]
    by_cases hr : r < len
    · refine ⟨0, r, ?_, ?_, ?_, ?_⟩
      · rw [if_pos hr]
        rfl
      · simp
      · simpa using hr
      · simp
    · rw [if_neg hr]
      have hsum : r - len < rest.sum := by
        rw [List.sum_cons] at h
        omega
      obtain ⟨j, rr, heq, hj, hrr, hsum2⟩ := ih (m + 1) (r - len) hsum
      refine ⟨j + 1, rr, ?_, ?_, ?_, ?_⟩
      · rw [heq]
        have harith : m + 1 + j = m + (j + 1) := by omega
        rw [harith]
      · simpa using hj
      · simpa using hrr
      · have htake : ((len :: rest).take (j + 1)).sum = len + (rest.take j).sum := by
          rw [List.take_succ_cons, List.sum_cons]
        rw [htake]
        omega

theorem sum_monthLengths (y : Nat) : (monthLengths y).sum = daysInYear y := by
  rw [monthLengths, daysInYear]
  cases hl : isLeap y
  · simp only [hl, Bool.false_eq_true, if_false]
    rfl
  · simp only [hl, if_true]
    rfl

theorem civilFromDays_injective (z1 z2 : Nat)
    (h : civilFromDays z1 = civilFromDays z2) : z1 = z2 := by
  obtain ⟨k1, r1, he1, hr1, hs1⟩ :=
    yearSplit_char (z1 + 1) 1970 z1 (by omega)
  obtain ⟨k2, r2, he2, hr2, hs2⟩ :=
    yearSplit_char (z2 + 1) 1970 z2 (by omega)
  have hm1 : r1 < (monthLengths (1970 + k1)).sum := by rw [sum_monthLengths]; exact hr1
  have hm2 : r2 < (monthLengths (1970 + k2)).sum := by rw [sum_monthLengths]; exact hr2
  obtain ⟨j1, rr1, hme1, hj1, hrr1, hms1⟩ := monthSplit_char (monthLengths (1970 + k1)) 1 r1 hm1
  obtain ⟨j2, rr2, hme2, hj2, hrr2, hms2⟩ := monthSplit_char (monthLengths (1970 + k2)) 1 r2 hm2
  rw [civilFromDays, civilFromDays] at h
  simp only [he1, he2, hme1, hme2] at h
  rw [Prod.ext_iff, Prod.ext_iff] at h
  simp only at h
  obtain ⟨hy, hmo, hd⟩ := h
  have hk : k1 = k2 := by omega
  subst hk
  have hj : j1 = j2 := by omega
  subst hj
  have hrr : rr1 = rr2 := by omega
  omega

theorem decDigit_ne_dash (k : Nat) : decDigit k ≠ '-' := by
  rw [decDigit]
  split_ifs <;> decide

theorem decDigit_toNat (k : Nat) (h : k < 10) : (decDigit k).toNat = 48 + k := by
  interval_cases k <;> rfl

theorem mem_decDigits_ne_dash : ∀ (fuel n : Nat), ∀ c ∈ decDigits fuel n, c ≠ '-' := by
  intro fuel
  induction fuel with
  | zero => intro n c hc; simp [decDigits] at hc
  | succ fuel ih =>
    intro n c hc
    rw [decDigits] at hc
    by_cases h : n < 10
    · rw [if_pos h, List.mem_singleton] at hc
      subst hc
      exact decDigit_ne_dash n
    · rw [if_neg h] at hc
      rcases List.mem_append.mp hc with h2 | h2
      · exact ih (n / 10) c h2
      · rw [List.mem_singleton] at h2
        subst h2
        exact decDigit_ne_dash (n % 10)

theorem digitsVal_append_single (cs : List Char) (c : Char) :
    digitsVal (cs ++ [c]) = 10 * digitsVal cs + (c.toNat - 48) := by
  rw [digitsVal, digitsVal, List.foldl_append]
  rfl

theorem digitsVal_decDigits : ∀ (fuel n : Nat), n < 10 ^ fuel →
    digitsVal (decDigits fuel n) = n := by
  intro fuel
  induction fuel with
  | zero =>
    intro n h
    rw [pow_zero] at h
    have hn : n = 0 := by omega
    subst hn
    rfl
  | succ fuel ih =>
    intro n h
    rw [decDigits]
    by_cases h10 : n < 10
    · rw [if_pos h10]
      have hv : digitsVal [decDigit n] = (decDigit n).toNat - 48 := by
        show 10 * 0 + ((decDigit n).toNat - 48) = _
        omega
      rw [hv, decDigit_toNat n h10]
      omega
    · rw [if_neg h10, digitsVal_append_single]
      have hdiv : n / 10 < 10 ^ fuel := by
        rw [pow_succ] at h
        omega
      rw [ih (n / 10) hdiv, decDigit_toNat (n % 10) (by omega)]
      omega

theorem natStr_injective : Function.Injective natStr := by
  intro a b h
  have hdata : decDigits (a + 1) a = decDigits (b + 1) b := congrArg String.data h
  have hpow : ∀ n : Nat, n < 10 ^ (n + 1) := by
    intro n
    calc n < 10 ^ n := Nat.lt_pow_self (by omega) n
    _ ≤ 10 ^ (n + 1) := Nat.pow_le_pow_right (by omega) (by omega)
  have hva := digitsVal_decDigits (a + 1) a (hpow a)
  have hvb := digitsVal_decDigits (b + 1) b (hpow b)
  rw [← hva, ← hvb, hdata]

theorem natStr_ne_dash (n : Nat) : ∀ c ∈ (natStr n).data, c ≠ '-' := by
  intro c hc
  exact mem_decDigits_ne_dash (n + 1) n c hc

theorem append_dash_inj : ∀ (a a2 b b2 : List Char), (∀ c ∈ a, c ≠ '-') →
    (∀ c ∈ a2, c ≠ '-') → a ++ '-' :: b = a2 ++ '-' :: b2 → a = a2 ∧ b = b2 := by
  intro a
  induction a with
  | nil =>
    intro a2 b b2 _ h2 heq
    cases a2 with
    | nil =>
      rw [List.nil_append, List.nil_append] at heq
      injection heq with _ htl
      exact ⟨rfl, htl⟩
    | cons x xs =>
      exfalso
      rw [List.nil_append, List.cons_append] at heq
      injection heq with hx _
      exact h2 x (List.mem_cons_self _ _) hx.symm
  | cons y ys ih =>
    intro a2 b b2 h1 h2 heq
    cases a2 with
    | nil =>
      exfalso
      rw [List.nil_append, List.cons_append] at heq
      injection heq with hy _
      exact h1 y (List.mem_cons_self _ _) hy
    | cons x xs =>
      rw [List.cons_append, List.cons_append] at heq
      injection heq with hxy htl
      obtain ⟨hA, hB⟩ := ih xs b b2 (fun c hc => h1 c (List.mem_cons.mpr (Or.inr hc)))
        (fun c hc => h2 c (List.mem_cons.mpr (Or.inr hc))) htl
      exact ⟨by rw [hxy, hA], hB⟩

theorem civilKey_data (z : Nat) :
    (civilKey z).data
      = (natStr (civilFromDays z).1).data ++ '-' ::
        ((natStr (civilFromDays z).2.1).data ++ '-' :: (natStr (civilFromDays z).2.2).data) := by
  rw [civilKey, String.data_append, String.data_append, String.data_append,
    String.data_append]
  have hdash : ("-" : String).data = ['-'] := rfl
  rw [hdash]
  simp [List.append_assoc]

theorem civilKey_injective : Function.Injective civilKey := by
  intro z1 z2 h
  have hdata := congrArg String.data h
  rw [civilKey_data, civilKey_data] at hdata
  obtain ⟨hy, hrest⟩ := append_dash_inj _ _ _ _ (natStr_ne_dash _) (natStr_ne_dash _) hdata
  obtain ⟨hm, hd⟩ := append_dash_inj _ _ _ _ (natStr_ne_dash _) (natStr_ne_dash _) hrest
  have hy2 : (civilFromDays z1).1 = (civilFromDays z2).1 :=
    natStr_injective (String.ext hy)
  have hm2 : (civilFromDays z1).2.1 = (civilFromDays z2).2.1 :=
    natStr_injective (String.ext hm)
  have hd2 : (civilFromDays z1).2.2 = (civilFromDays z2).2.2 :=
    natStr_injective (String.ext hd)
  refine civilFromDays_injective z1 z2 ?_
  rw [Prod.ext_iff]
  exact ⟨hy2, by rw [Prod.ext_iff]; exact ⟨hm2, hd2⟩⟩

theorem dayKey_eq_iff (t1 t2 : Nat) :
    dayKey t1 = dayKey t2 ↔ dayNumber t1 = dayNumber t2 := by
  constructor
  · intro h
    exact civilKey_injective h
  · intro h
    rw [dayKey, dayKey, h]

/-- C7: `completionsByDay` of the owner summary is computed from the global
window of the fifty most recently created records, ignoring the owner
argument entirely; records are grouped by the local-calendar day key of
their start timestamp; at most seven buckets are emitted — exactly the seven
most recent distinct days of the window — in chronological order with the
oldest selected day first, each carrying the number of window records
started that day. -/
theorem completionsByDay_spec (db : List AnalyticsRecord) (tours : List TourDoc)
    (ownerId : String)
    (hsorted : db.Pairwise (fun a b => a.creationTime ≤ b.creationTime))
    (hstart : ∀ r ∈ db, r.creationTime = r.startedAt) :
    (getOwnerAnalyticsSummary db tours ownerId).completionsByDay
      = completionsByDay (recent50 db) ∧
    (∀ (ownerId2 : String) (tours2 : List TourDoc),
      (getOwnerAnalyticsSummary db tours2 ownerId2).completionsByDay
        = (getOwnerAnalyticsSummary db tours ownerId).completionsByDay) ∧
    (getOwnerAnalyticsSummary db tours ownerId).completionsByDay.length ≤ 7 ∧
    ((getOwnerAnalyticsSummary db tours ownerId).completionsByDay.map
        (fun dc => dc.date))
      = ((selectedDays db).reverse).map civilKey ∧
    ((selectedDays db).reverse).Pairwise (fun a b => a < b) ∧
    (∀ z ∈ windowDays db, z ∉ selectedDays db → ∀ z2 ∈ selectedDays db, z < z2) ∧
    ∀ dc ∈ (getOwnerAnalyticsSummary db tours ownerId).completionsByDay,
      dc.completions = (recent50 db).countP (fun r => dayKey r.startedAt == dc.date) ∧
      ∃ z ∈ selectedDays db, dc.date = civilKey z ∧
        dc.completions = (recent50 db).countP (fun r => dayNumber r.startedAt == z) := by
  have hk1 : (byDay (recent50 db)).map Prod.fst
      = (firstSeen [] (windowDays db)).map civilKey := by
    rw [map_fst_byDay]
    have hcomp : (recent50 db).map (fun r => dayKey r.startedAt)
        = (windowDays db).map civilKey := by
      rw [windowDays, List.map_map]
      rfl
    rw [hcomp]
    exact firstSeen_map_inj civilKey civilKey_injective (windowDays db) []
  have hdays : (windowDays db).Pairwise (fun a b => b ≤ a) := by
    rw [windowDays, List.pairwise_map]
    have hrev : (db.reverse).Pairwise (fun a b => b.creationTime ≤ a.creationTime) :=
      List.pairwise_reverse.mpr hsorted
    have htake : (recent50 db).Pairwise (fun a b => b.creationTime ≤ a.creationTime) := by
      rw [recent50]
      exact List.Pairwise.sublist (List.take_sublist _ _) hrev
    refine List.Pairwise.imp_of_mem ?_ htake
    intro a b ha hb hle
    have hadb : a ∈ db := List.mem_reverse.mp (List.take_subset _ _ ha)
    have hbdb : b ∈ db := List.mem_reverse.mp (List.take_subset _ _ hb)
    rw [hstart a hadb, hstart b hbdb] at hle
    exact Nat.div_le_div_right hle
  have hfsdesc : (firstSeen [] (windowDays db)).Pairwise (fun a b => b < a) :=
    firstSeen_strict_desc _ [] hdays List.Pairwise.nil
      (fun a ha => absurd ha (List.not_mem_nil a))
  have hseldesc : (selectedDays db).Pairwise (fun a b => b < a) := by
    rw [selectedDays]
    exact List.Pairwise.sublist (List.take_sublist _ _) hfsdesc
  have hdates : (completionsByDay (recent50 db)).map (fun dc => dc.date)
      = ((selectedDays db).reverse).map civilKey := by
    rw [completionsByDay, List.map_map]
    have hcomp2 : ((fun dc : DayCount => dc.date) ∘
        (fun p : String × Nat => ({ date := p.1, completions := p.2 } : DayCount)))
        = (Prod.fst : String × Nat → String) := rfl
    rw [hcomp2, List.map_reverse, List.map_take, hk1, ← List.map_take, ← List.map_reverse]
    rfl
  refine ⟨rfl, fun o2 t2 => rfl, ?_, ?_, ?_, ?_, ?_⟩
  · show (completionsByDay (recent50 db)).length ≤ 7
    rw [completionsByDay, List.length_map, List.length_reverse]
    exact List.length_take_le _ _
  · exact hdates
  · exact List.pairwise_reverse.mpr hseldesc
  · intro z hz hznot z2 hz2
    have hzfs : z ∈ firstSeen [] (windowDays db) := (mem_firstSeen _ _ _).mpr (Or.inr hz)
    have hsplit := List.take_append_drop 7 (firstSeen [] (windowDays db))
    have hpw := hfsdesc
    rw [← hsplit, List.pairwise_append] at hpw
    rw [← hsplit, List.mem_append] at hzfs
    rcases hzfs with hzt | hzd
    · exact absurd hzt (by rw [selectedDays] at hznot; exact hznot)
    · have hz2t : z2 ∈ (firstSeen [] (windowDays db)).take 7 := by
        rw [selectedDays] at hz2
        exact hz2
      exact hpw.2.2 z2 hz2t z hzd
  · intro dc hdc
    have hdc2 : dc ∈ completionsByDay (recent50 db) := hdc
    rw [completionsByDay] at hdc2
    rcases List.mem_map.mp hdc2 with ⟨p, hp, rfl⟩
    have hpbd : p ∈ byDay (recent50 db) :=
      List.take_subset _ _ (List.mem_reverse.mp hp)
    have hnodup : ((byDay (recent50 db)).map Prod.fst).Nodup := by
      rw [map_fst_byDay]
      exact nodup_firstSeen _ [] List.nodup_nil
    have hlk := lookupKey_of_mem _ hnodup p hpbd
    rw [lookupKey_byDay] at hlk
    by_cases hm : p.1 ∈ (recent50 db).map (fun r => dayKey r.startedAt)
    · rw [if_pos hm] at hlk
      have hp2 : p.2 = (recent50 db).countP (fun r => dayKey r.startedAt == p.1) :=
        (Option.some.inj hlk).symm
      refine ⟨hp2, ?_⟩
      have hdate : p.1 ∈ ((selectedDays db).reverse).map civilKey := by
        rw [← hdates]
        refine List.mem_map.mpr
          ⟨({ date := p.1, completions := p.2 } : DayCount), ?_, rfl⟩
        rw [completionsByDay]
        exact List.mem_map_of_mem _ hp
      rcases List.mem_map.mp hdate with ⟨z, hzrev, hzeq⟩
      refine ⟨z, List.mem_reverse.mp hzrev, hzeq.symm, ?_⟩
      show p.2 = _
      rw [hp2, ← hzeq]
      refine List.countP_congr ?_
      intro r hr
      constructor
      · intro hb
        rw [beq_iff_eq] at hb ⊢
        exact civilKey_injective hb
      · intro hb
        rw [beq_iff_eq] at hb ⊢
        rw [dayKey, hb]
    · rw [if_neg hm] at hlk
      exact Option.noConfusion hlk

/-- Witness for `completionsByDay_spec` on two records started on
consecutive days. -/
theorem completionsByDay_spec_witness :
    (exDbDays.Pairwise (fun a b => a.creationTime ≤ b.creationTime) ∧
      ∀ r ∈ exDbDays, r.creationTime = r.startedAt) ∧
    ((getOwnerAnalyticsSummary exDbDays [] "o").completionsByDay
      = completionsByDay (recent50 exDbDays) ∧
    (∀ (ownerId2 : String) (tours2 : List TourDoc),
      (getOwnerAnalyticsSummary exDbDays tours2 ownerId2).completionsByDay
        = (getOwnerAnalyticsSummary exDbDays [] "o").completionsByDay) ∧
    (getOwnerAnalyticsSummary exDbDays [] "o").completionsByDay.length ≤ 7 ∧
    ((getOwnerAnalyticsSummary exDbDays [] "o").completionsByDay.map
        (fun dc => dc.date))
      = ((selectedDays exDbDays).reverse).map civilKey ∧
    ((selectedDays exDbDays).reverse).Pairwise (fun a b => a < b) ∧
    (∀ z ∈ windowDays exDbDays, z ∉ selectedDays exDbDays →
      ∀ z2 ∈ selectedDays exDbDays, z < z2) ∧
    ∀ dc ∈ (getOwnerAnalyticsSummary exDbDays [] "o").completionsByDay,
      dc.completions
        = (recent50 exDbDays).countP (fun r => dayKey r.startedAt == dc.date) ∧
      ∃ z ∈ selectedDays exDbDays, dc.date = civilKey z ∧
        dc.completions
          = (recent50 exDbDays).countP (fun r => dayNumber r.startedAt == z)) :=
  ⟨⟨by
      rw [exDbDays, List.pairwise_cons]
      refine ⟨?_, List.pairwise_singleton _ _⟩
      intro b hb
      rw [List.mem_singleton] at hb
      subst hb
      norm_num,
    by decide⟩,
   completionsByDay_spec exDbDays [] "o"
    (by
      rw [exDbDays, List.pairwise_cons]
      refine ⟨?_, List.pairwise_singleton _ _⟩
      intro b hb
      rw [List.mem_singleton] at hb
      subst hb
      norm_num)
    (by decide)⟩

end Meget
